import Mathlib

/-!
Shallow embedding of the `vanta` encrypted image vault (the `src/vault`
module: `mod.rs`, `db.rs`, `crypto.rs`, `types.rs`, `error.rs`), together
with theorems settling the frozen claims about its specification.

Bytes are modelled as `Nat` (with `% 256` where the source produces bytes),
UUIDs as `Nat` (128-bit random identifiers, collisions impossible per the
spec), hash maps and sled trees as association lists with a canonical
`lookupA` semantics, and hash sets as duplicate-free lists.
-/

namespace Vanta

abbrev Byte := Nat

/-- 128-bit UUIDv4 image identifier (`uuid::Uuid`), modelled as `Nat`. -/
abbrev Uuid := Nat

/-! ### Association-list maps

Model of `std::collections::HashMap` and of a sled `Tree`: lookup returns
the value of the first pair with the given key; insert replaces, erase
removes. -/

def lookupA {κ β : Type} [DecidableEq κ] (k : κ) : List (κ × β) → Option β
  | [] => none
  | p :: rest => if p.1 = k then some p.2 else lookupA k rest

def dropKey {κ β : Type} [DecidableEq κ] (k : κ) (l : List (κ × β)) : List (κ × β) :=
  l.filter (fun p => !decide (p.1 = k))

def setA {κ β : Type} [DecidableEq κ] (l : List (κ × β)) (k : κ) (b : β) : List (κ × β) :=
  (k, b) :: dropKey k l

def eraseA {κ β : Type} [DecidableEq κ] (l : List (κ × β)) (k : κ) : List (κ × β) :=
  dropKey k l

/-! ### Core data types (`src/vault/types.rs`, `src/vault/error.rs`) -/

/-- `ImageVariant` from `types.rs`: the closed family of stored resolutions. -/
inductive ImageVariant
  | original
  | high
  | low
  | thumbnail
deriving DecidableEq, Repr

/-- `ImageVariant::filename` from `types.rs`. -/
def ImageVariant.filename : ImageVariant → String
  | .original => "original"
  | .high => "high"
  | .low => "low"
  | .thumbnail => "thumbnail"

/-- `ImageVariant::mime` from `types.rs`: the original MIME for `Original`,
the literal `"image/webp"` for every other variant. -/
def ImageVariant.mime : ImageVariant → String → String
  | .original, originalMime => originalMime
  | _, _ => "image/webp"

/-- Kinds of `std::io::Error` relevant to the vault code (`e.kind()`). -/
inductive IoErrorKind
  | notFound
  | permissionDenied
  | otherKind
deriving DecidableEq, Repr

/-- `VaultError` from `error.rs`.  There is no `Locked` variant: the absence
of unlocked state surfaces as `encryptionError` (see `Vault.withData`). -/
inductive VaultError
  | dbErr : String → VaultError
  | ioErr : IoErrorKind → VaultError
  | encryptionError
  | corruption : String → VaultError
  | invalidVersion : Nat → Nat → VaultError
  | argon2 : String → VaultError
  | notFound : String → VaultError
  | serialization : String → VaultError
  | utf8String
  | utf8Str
  | parseIntErr
  | timeErr
deriving DecidableEq, Repr

/-- `LinkedImage` from the current `mod.rs` entry model. -/
structure LinkedImage where
  id : Uuid
  original_mime : String
  original_size : Nat
  variants : List ImageVariant
deriving DecidableEq, Repr

/-- `ImageEntry` from `types.rs` / `mod.rs`: per-image metadata record. -/
structure ImageEntry where
  id : Uuid
  original_mime : String
  original_size : Nat
  created_at : Nat
  variants : List ImageVariant
  tags : List String
  linked_images : List LinkedImage
deriving DecidableEq, Repr

/-! ### Tag normalization (`ImageEntry::normalize_tag`, `types.rs`)

`str::to_lowercase`, `str::trim` and `char::is_alphanumeric` live in the
Rust standard library, outside this repository.  They are modelled from
the spec ("lowercase, trimmed, characters ∈ alphanumeric ∪ {-,_}") over
ASCII plus the Latin-1 block, which covers every concrete input used in
the theorems below; `char::is_alphanumeric` is a full-Unicode predicate in
Rust, and the model keeps its non-ASCII nature (it accepts Latin-1 letters
such as 'é'). -/

/-- Modelled from the spec: Rust `char::is_whitespace` (Unicode
`White_Space`), restricted to ASCII whitespace plus U+0085 and U+00A0. -/
def isRustWhitespace (c : Char) : Bool :=
  c = ' ' || c = '\t' || c = '\n' || c = '\r' ||
    c.toNat = 0x0B || c.toNat = 0x0C || c.toNat = 0x85 || c.toNat = 0xA0

/-- Modelled from the spec: the per-character core of Rust
`str::to_lowercase`, restricted to ASCII and the Latin-1 block
(uppercase À..Þ map 32 code points down, except ×). -/
def rustCharToLower (c : Char) : Char :=
  if 'A' ≤ c ∧ c ≤ 'Z' then Char.ofNat (c.toNat + 32)
  else if 0xC0 ≤ c.toNat ∧ c.toNat ≤ 0xDE ∧ c.toNat ≠ 0xD7 then Char.ofNat (c.toNat + 32)
  else c

/-- Modelled from the spec: Rust `str::to_lowercase` (character-wise on the
modelled blocks; the multi-character special cases do not arise here). -/
def rustToLowercase (s : String) : String :=
  String.mk (s.toList.map rustCharToLower)

/-- Modelled from the spec: Rust `str::trim`, dropping leading and trailing
whitespace characters. -/
def rustTrim (s : String) : String :=
  String.mk (((s.toList.dropWhile isRustWhitespace).reverse.dropWhile
    isRustWhitespace).reverse)

/-- Modelled from the spec: Rust `char::is_alphanumeric` (Unicode
alphabetic or numeric — not only ASCII), restricted to ASCII alphanumerics
plus the Latin-1 letters (all of 0xC0..0xFF except × and ÷, plus ª µ º). -/
def isRustAlphanumeric (c : Char) : Bool :=
  c.isAlpha || c.isDigit ||
    (0xC0 ≤ c.toNat && c.toNat ≤ 0xFF && c.toNat ≠ 0xD7 && c.toNat ≠ 0xF7) ||
    c.toNat = 0xAA || c.toNat = 0xB5 || c.toNat = 0xBA

/-- `ImageEntry::normalize_tag` from `types.rs`: lowercase, trim, then
reject empty, byte-length > 32 (`str::len` counts UTF-8 bytes), or any
character outside alphanumeric/`-`/`_`. -/
def normalizeTag (tag : String) : Except VaultError String :=
  let normalized := rustTrim (rustToLowercase tag)
  if normalized = "" then
    .error (.corruption "Tag cannot be empty")
  else if 32 < normalized.utf8ByteSize then
    .error (.corruption "Tag too long")
  else if ¬ (normalized.toList.all fun c => isRustAlphanumeric c || c = '-' || c = '_') then
    .error (.corruption "Invalid tag characters")
  else
    .ok normalized

/-! ### Crypto envelope (`src/vault/crypto.rs`)

The XChaCha20-Poly1305 cipher itself comes from the `chacha20poly1305`
crate, outside this repository.  It is modelled from the spec
("XChaCha20-Poly1305 ... Output = nonce || ciphertext_with_tag", envelope
`nonce(24) || ciphertext || tag(16)`): an executable stream-xor keystream
plus a 16-byte authenticator recomputed and compared on open. -/

/-- Modelled from the spec: byte `i` of the XChaCha20 keystream for a given
key and nonce (the real keystream is an unspecified-here deterministic
function of exactly these inputs). -/
def streamByte (key nonce : List Byte) (i : Nat) : Byte :=
  (key.foldl (fun a b => a * 31 + b) 7 +
    nonce.foldl (fun a b => a * 37 + b) 11 + i * 131 + i) % 256

/-- Xor of a byte list against the keystream starting at position `i`. -/
def xorStreamFrom (key nonce : List Byte) (i : Nat) : List Byte → List Byte
  | [] => []
  | b :: bs => (b ^^^ streamByte key nonce i) % 256 :: xorStreamFrom key nonce (i + 1) bs

def xorStream (key nonce : List Byte) (data : List Byte) : List Byte :=
  xorStreamFrom key nonce 0 data

/-- Modelled from the spec: the 16-byte Poly1305 authenticator over the
associated data and the ciphertext. -/
def polyTag (key nonce aad ct : List Byte) : List Byte :=
  (List.range 16).map fun i =>
    (key ++ nonce ++ aad ++ [255] ++ ct).foldl
      (fun a b => (a * 131 + b + i + 1) % 65521) (i + 3) % 256

/-- Modelled from the spec: `XChaCha20Poly1305::encrypt` — ciphertext is
the stream-xor of the plaintext, followed by the 16-byte tag. -/
def aeadSeal (key nonce aad pt : List Byte) : List Byte :=
  xorStream key nonce pt ++ polyTag key nonce aad (xorStream key nonce pt)

/-- Modelled from the spec: `XChaCha20Poly1305::decrypt` — split off the
16-byte tag, recompute it over the ciphertext and associated data, and
fail on mismatch. -/
def aeadOpen (key nonce aad ctt : List Byte) : Option (List Byte) :=
  if ctt.length < 16 then none
  else
    let ct := ctt.take (ctt.length - 16)
    let tag := ctt.drop (ctt.length - 16)
    if tag = polyTag key nonce aad ct then some (xorStream key nonce ct) else none

/-- `encrypt` from `crypto.rs`: build the cipher from the 32-byte key,
draw a 24-byte nonce (here a parameter, standing for the CSPRNG draw), and
return `nonce || ciphertext_with_tag`. -/
def cryptoEncrypt (key data aad nonce : List Byte) : Except VaultError (List Byte) :=
  if key.length ≠ 32 then .error .encryptionError
  else .ok (nonce ++ aeadSeal key nonce aad data)

/-- `decrypt` from `crypto.rs`: reject inputs shorter than a nonce as
`Corruption`, split the first 24 bytes as the nonce, and let any
authentication failure surface as `EncryptionError`. -/
def cryptoDecrypt (key data aad : List Byte) : Except VaultError (List Byte) :=
  if data.length < 24 then .error (.corruption "Data too short")
  else if key.length ≠ 32 then .error .encryptionError
  else
    match aeadOpen key (data.take 24) aad (data.drop 24) with
    | some pt => .ok pt
    | none => .error .encryptionError

instance {ε α : Type} [DecidableEq ε] [DecidableEq α] : DecidableEq (Except ε α) := fun a b =>
  match a, b with
  | .ok x, .ok y =>
    if h : x = y then isTrue (by rw [h]) else isFalse (by simp [h])
  | .error x, .error y =>
    if h : x = y then isTrue (by rw [h]) else isFalse (by simp [h])
  | .ok _, .error _ => isFalse (by simp)
  | .error _, .ok _ => isFalse (by simp)

/-! ### Vault state (`src/vault/mod.rs`, `src/vault/db.rs`)

The sled `entries` tree stores `envelope(postcard(entry))` keyed by the
16 id bytes; `crypto.encrypt`/`postcard` round-trip exactly (the envelope
round-trip is proved above), so the tree is modelled as an association
list from id to the decoded `ImageEntry`.  The blob store keeps the real
envelope bytes: one record per `(image-id, variant-stem)` file. -/

abbrev TagIndex := List (String × List Uuid)

abbrev BlobStore := List ((Uuid × String) × List Byte)

/-- `VaultMetadata` from `types.rs`. -/
structure VaultMetadata where
  vault_version : Nat
  created_at : Nat
  vault_salt : Option (List Byte)
  master_key_check : Option (List Byte)
deriving DecidableEq, Repr

/-- The `entries` tree of `Database` from `db.rs`. -/
structure Db where
  entries : List (Uuid × ImageEntry)
deriving DecidableEq, Repr

/-- `VaultData` from `mod.rs`: the in-RAM unlocked state. -/
structure VaultData where
  tag_index : TagIndex
  encryption_key : List Byte
deriving DecidableEq, Repr

/-- `Vault` from `mod.rs`, together with the blob directory it owns. -/
structure Vault where
  metadata : VaultMetadata
  db : Db
  blobs : BlobStore
  data : Option VaultData
deriving DecidableEq, Repr

/-- Upload accept list from `api.rs` (`ALLOWED_IMAGE_TYPES`). -/
def allowedImageTypes : List String := ["image/jpeg", "image/png", "image/webp"]

/-- Sort key of `par_sort_unstable_by(|a, b| b.created_at.cmp(&a.created_at))`:
`created_at` descending.  The comparator looks at nothing else, so the
order among entries with equal `created_at` is unspecified; the embedding
determinizes it as a stable insertion sort. -/
def createdDesc (a b : ImageEntry) : Prop := b.created_at ≤ a.created_at

instance : DecidableRel createdDesc := fun a b => Nat.decLe b.created_at a.created_at

instance : IsTotal ImageEntry createdDesc := ⟨fun a b => Nat.le_total b.created_at a.created_at⟩

instance : IsTrans ImageEntry createdDesc := ⟨fun _ _ _ hab hbc => Nat.le_trans hbc hab⟩

/-- `sets.sort_by_key(|s| s.len())` in `search_by_tags`. -/
def lenLE (a b : List Uuid) : Prop := a.length ≤ b.length

instance : DecidableRel lenLE := fun a b => Nat.decLe a.length b.length

/-- Hash-map bucket access with the empty-set default
(`tag_index.get(..).cloned().unwrap_or_default()`). -/
def lookupBucket (idx : TagIndex) (t : String) : List Uuid :=
  (lookupA t idx).getD []

/-- `tag_index.entry(tag).or_default().insert(id)`. -/
def addToBucket (idx : TagIndex) (t : String) (id : Uuid) : TagIndex :=
  let s := lookupBucket idx t
  setA idx t (if id ∈ s then s else id :: s)

/-- `if let Some(set) = tag_index.get_mut(tag) { set.remove(&id);
if set.is_empty() { tag_index.remove(tag); } }`. -/
def removeFromBucket (idx : TagIndex) (t : String) (id : Uuid) : TagIndex :=
  match lookupA t idx with
  | none => idx
  | some s =>
    let s2 := s.filter fun x => !decide (x = id)
    if s2.isEmpty then eraseA idx t else setA idx t s2

/-- `tag_index.entry(new_tag).or_default().extend(old_ids)`. -/
def extendBucket (idx : TagIndex) (t : String) (ids : List Uuid) : TagIndex :=
  setA idx t (ids.foldl (fun s i => if i ∈ s then s else s ++ [i]) (lookupBucket idx t))

/-- `Vault::build_tag_index` from `mod.rs`. -/
def build_tag_index (entries : List ImageEntry) : TagIndex :=
  entries.foldl (fun idx e => e.tags.foldl (fun ix t => addToBucket ix t e.id) idx) []

/-! ### Database operations (`db.rs`) -/

/-- `Database::insert_entry`: serialize, encrypt with the id bytes as AAD,
store under the id — modelled post round-trip as a map update at
`entry.id`. -/
def Db.insert_entry (db : Db) (e : ImageEntry) : Db :=
  ⟨setA db.entries e.id e⟩

/-- `Database::get_entry`: fetch, decrypt, deserialize; absent keys give
`NotFound`. -/
def Db.get_entry (db : Db) (id : Uuid) : Except VaultError ImageEntry :=
  match lookupA id db.entries with
  | some e => .ok e
  | none => .error (.notFound (toString id))

/-- `Database::remove_entry` (`db.rs` lines 113-116): a bare tree remove —
absent keys are not an error, and nothing is flushed. -/
def Db.remove_entry (db : Db) (id : Uuid) : Db :=
  ⟨eraseA db.entries id⟩

/-- `Database::get_all_entries`: decrypt every record (skipping corrupt
ones — all records decrypt in this model), then sort newest first. -/
def Db.get_all_entries (db : Db) : List ImageEntry :=
  List.insertionSort createdDesc (db.entries.map Prod.snd)

/-! ### Vault lifecycle (`mod.rs`) -/

def Vault.needs_setup (v : Vault) : Bool :=
  v.metadata.vault_salt.isNone || v.metadata.master_key_check.isNone

def Vault.is_unlocked (v : Vault) : Bool :=
  v.data.isSome

def Vault.lock (v : Vault) : Vault :=
  { v with data := none }

/-- `Vault::with_data` / `with_data_mut`: both return
`VaultError::EncryptionError` when no unlocked state is present. -/
def Vault.withData {α : Type} (v : Vault) (f : VaultData → Except VaultError α) :
    Except VaultError α :=
  match v.data with
  | some data => f data
  | none => .error .encryptionError

/-- Modelled from the spec: Argon2id key derivation (`derive_key` in
`crypto.rs` calls the `argon2` crate, which is not in `src/`) — an
unspecified deterministic 32-byte function of password and salt. -/
def derive_key (password : String) (salt : List Byte) : List Byte :=
  (List.range 32).map fun i =>
    (password.toList.foldl (fun a c => (a * 31 + c.toNat) % 65521) (i + 1) +
      salt.foldl (fun a b => (a * 33 + b) % 65521) i) % 256

/-- `Vault::setup` from `mod.rs`: refuse when already set up; generate a
master key and salt (parameters here, standing for the CSPRNG draws),
wrap the master key into the check blob, persist salt and check (the
sled write and the `vault/.salt` sidecar update exactly the two metadata
fields below), and return.  Note: the in-RAM `data` slot is NOT touched —
no unlocked state is installed. -/
def Vault.setup (v : Vault) (master_password : String)
    (master_key salt nonce : List Byte) : Except VaultError Vault :=
  if ¬ v.needs_setup then .error (.corruption "Vault already set up")
  else do
    let wrapping_key := derive_key master_password salt
    let key_check ← cryptoEncrypt wrapping_key master_key [] nonce
    .ok { v with metadata := { v.metadata with
            vault_salt := some salt, master_key_check := some key_check } }

/-- `Vault::unlock` from `mod.rs`: derive the wrapping key, decrypt the
check blob into the master key (must be exactly 32 bytes), rebuild the
tag index from every decryptable entry, and install the unlocked state.
(The v1→v2 migration hook has no implementation in `db.rs`.) -/
def Vault.unlock (v : Vault) (password : String) : Except VaultError Vault := do
  let salt ← match v.metadata.vault_salt with
    | some s => Except.ok s
    | none => Except.error VaultError.encryptionError
  let check ← match v.metadata.master_key_check with
    | some c => Except.ok c
    | none => Except.error VaultError.encryptionError
  let wrapping_key := derive_key password salt
  let master_key ← cryptoDecrypt wrapping_key check []
  if master_key.length ≠ 32 then Except.error VaultError.encryptionError
  else
    Except.ok { v with
                data := some ⟨build_tag_index (Db.get_all_entries v.db), master_key⟩ }

/-! ### Image operations (`mod.rs`) -/

/-- `Vault::make_aad`: the 16 id bytes followed by the ASCII bytes of the
variant stem. -/
def uuidBytes (u : Uuid) : List Byte :=
  (List.range 16).map fun i => u / 256 ^ i % 256

def make_aad (id : Uuid) (variantName : String) : List Byte :=
  uuidBytes id ++ variantName.toList.map Char.toNat

/-- The per-variant encrypt-and-write loop of `Vault::store_image`. -/
def writeVariants (key : List Byte) (id : Uuid) (nonces : ImageVariant → List Byte)
    (blobs : BlobStore) : List (ImageVariant × List Byte) → Except VaultError BlobStore
  | [] => Except.ok blobs
  | p :: rest => do
    let enc ← cryptoEncrypt key p.2 (make_aad id p.1.filename) (nonces p.1)
    writeVariants key id nonces (setA blobs (id, p.1.filename) enc) rest

/-- `Vault::store_image`: fresh id and wall-clock time are parameters
(standing for `Uuid::new_v4` and `SystemTime::now`), as are the nonces the
CSPRNG draws for each variant's envelope. -/
def Vault.store_image (v : Vault) (original_mime : String) (size : Nat)
    (variants : List (ImageVariant × List Byte)) (id : Uuid) (now : Nat)
    (nonces : ImageVariant → List Byte) : Except VaultError (ImageEntry × Vault) :=
  match v.data with
  | none => .error .encryptionError
  | some data => do
    let entry : ImageEntry :=
      ⟨id, original_mime, size, now, variants.map Prod.fst, [], []⟩
    let blobs2 ← writeVariants data.encryption_key id nonces v.blobs variants
    .ok (entry, { v with blobs := blobs2, db := v.db.insert_entry entry })

/-- `Vault::retrieve_image`: load the entry, check the variant is
recorded, read and decrypt the blob, and return it with
`variant.mime(&entry.original_mime)`. -/
def Vault.retrieve_image (v : Vault) (id : Uuid) (variant : ImageVariant) :
    Except VaultError (List Byte × String) :=
  match v.data with
  | none => .error .encryptionError
  | some data => do
    let entry ← v.db.get_entry id
    if variant ∈ entry.variants then
      match lookupA (id, variant.filename) v.blobs with
      | none => .error (.ioErr .notFound)
      | some encData => do
        let pt ← cryptoDecrypt data.encryption_key encData (make_aad id variant.filename)
        .ok (pt, variant.mime entry.original_mime)
    else .error (.notFound ("Variant missing: " ++ toString id))

/-- Observable effects of `Vault::delete_image`, in program order. -/
inductive VEffect
  | dbGetEntry : Uuid → VEffect
  | dbRemoveEntry : Uuid → VEffect
  | dbFlush
  | fsRemoveDirAll : Uuid → VEffect
deriving DecidableEq, Repr

structure DeleteOutcome where
  result : Except VaultError Unit
  vault : Vault
  effects : List VEffect
deriving Repr

/-- The `fs::remove_dir_all` sequence of `delete_image` (cover directory,
then each linked-image directory): `rm` is the filesystem outcome of each
removal (`none` = removed, `some k` = failed with kind `k`); a NotFound
is tolerated, any other kind aborts with `Io`. -/
def removeDirsEff (rm : Uuid → Option IoErrorKind) (blobs : BlobStore) :
    List Uuid → Except VaultError Unit × List VEffect × BlobStore
  | [] => (Except.ok (), [], blobs)
  | i :: rest =>
    match rm i with
    | some k =>
      if k = IoErrorKind.notFound then
        let r := removeDirsEff rm blobs rest
        (r.1, VEffect.fsRemoveDirAll i :: r.2.1, r.2.2)
      else (Except.error (.ioErr k), [VEffect.fsRemoveDirAll i], blobs)
    | none =>
      let r := removeDirsEff rm (blobs.filter fun p => !decide (p.1.1 = i)) rest
      (r.1, VEffect.fsRemoveDirAll i :: r.2.1, r.2.2)

/-- `Vault::delete_image`: under the write lock, decrypt the entry to
learn its tags and linked ids, prune the id out of those tag-index
buckets, remove the entries record (no flush happens anywhere on this
path); then, outside the lock, remove the cover directory and the linked
directories, tolerating NotFound.  The database and index updates persist
even when a directory removal fails. -/
def Vault.delete_image (v : Vault) (id : Uuid) (rm : Uuid → Option IoErrorKind) :
    DeleteOutcome :=
  match v.data with
  | none => ⟨.error .encryptionError, v, []⟩
  | some data =>
    let info :=
      match lookupA id v.db.entries with
      | some e =>
        (e.linked_images.map LinkedImage.id,
          e.tags.foldl (fun ix t => removeFromBucket ix t id) data.tag_index)
      | none => ([], data.tag_index)
    let v2 := { v with
      db := v.db.remove_entry id,
      data := some { data with tag_index := info.2 } }
    let r := removeDirsEff rm v.blobs (id :: info.1)
    ⟨r.1, { v2 with blobs := r.2.2 },
      [VEffect.dbGetEntry id, VEffect.dbRemoveEntry id] ++ r.2.1⟩

/-! ### Tag operations (`mod.rs`) -/

/-- `Vault::tag_image`: normalize, load, append the tag when absent,
persist, add the id to the bucket; idempotent on duplicates. -/
def Vault.tag_image (v : Vault) (id : Uuid) (tag : String) :
    Except VaultError (ImageEntry × Vault) := do
  let t ← normalizeTag tag
  match v.data with
  | none => .error .encryptionError
  | some data => do
    let e ← v.db.get_entry id
    if t ∈ e.tags then .ok (e, v)
    else
      let e2 := { e with tags := e.tags ++ [t] }
      .ok (e2, { v with
        db := v.db.insert_entry e2,
        data := some { data with tag_index := addToBucket data.tag_index t id } })

/-- `Vault::untag_image`: normalize, load, remove the tag when present,
persist, drop the id from the bucket (pruning it when empty). -/
def Vault.untag_image (v : Vault) (id : Uuid) (tag : String) :
    Except VaultError (ImageEntry × Vault) := do
  let t ← normalizeTag tag
  match v.data with
  | none => .error .encryptionError
  | some data => do
    let e ← v.db.get_entry id
    if t ∈ e.tags then
      let e2 := { e with tags := e.tags.erase t }
      .ok (e2, { v with
        db := v.db.insert_entry e2,
        data := some { data with tag_index := removeFromBucket data.tag_index t id } })
    else .ok (e, v)

/-- The rewrite-loop body of `Vault::rename_tag`: load the entry (skip
on failure), and when it still carries the old tag, remove it, append the
new tag if absent, and persist, bumping the count. -/
def renameStep (o n : String) (acc : Nat × Db) (i : Uuid) : Nat × Db :=
  match lookupA i acc.2.entries with
  | none => acc
  | some e =>
    if o ∈ e.tags then
      (acc.1 + 1, acc.2.insert_entry
        { e with tags :=
            if n ∈ e.tags.erase o then e.tags.erase o else e.tags.erase o ++ [n] })
    else acc

/-- `Vault::rename_tag`: normalize both tags; equal tags are a no-op; the
ids of the old bucket are snapshotted, every entry still carrying the old
tag is rewritten (`renameStep`), and the old bucket's ids are merged into
the new one. -/
def Vault.rename_tag (v : Vault) (oldTag newTag : String) :
    Except VaultError (Nat × Vault) := do
  let o ← normalizeTag oldTag
  let n ← normalizeTag newTag
  if o = n then .ok (0, v)
  else match v.data with
  | none => .error .encryptionError
  | some data =>
    let ids := lookupBucket data.tag_index o
    if ids.isEmpty then .ok (0, v)
    else
      let res := ids.foldl (renameStep o n) (0, v.db)
      let idx2 :=
        match lookupA o data.tag_index with
        | some olds => extendBucket (eraseA data.tag_index o) n olds
        | none => data.tag_index
      .ok (res.1, { v with
        db := res.2,
        data := some { data with tag_index := idx2 } })

/-! ### Listing and search (`mod.rs`) -/

def Vault.list_images (v : Vault) : Except VaultError (List ImageEntry) :=
  v.withData fun _ => .ok (Db.get_all_entries v.db)

def Vault.list_tags (v : Vault) : Except VaultError (List String) :=
  v.withData fun data =>
    .ok (List.insertionSort (fun a b : String => a ≤ b) (data.tag_index.map Prod.fst))

/-- The per-include-tag bucket collection loop of `search_by_tags`. -/
def collectBuckets (idx : TagIndex) : List String → Except VaultError (List (List Uuid))
  | [] => Except.ok []
  | t :: ts => do
    let n ← normalizeTag t
    let rest ← collectBuckets idx ts
    Except.ok (lookupBucket idx n :: rest)

/-- The exclusion loop of `search_by_tags`: for every exclude tag whose
bucket exists, drop its members from the candidates. -/
def applyExcludes (idx : TagIndex) : List Uuid → List String → Except VaultError (List Uuid)
  | cand, [] => Except.ok cand
  | cand, t :: ts => do
    let n ← normalizeTag t
    match lookupA n idx with
    | some s => applyExcludes idx (cand.filter fun i => !decide (i ∈ s)) ts
    | none => applyExcludes idx cand ts

/-- The tail of `search_by_tags` after the candidate set is fixed:
exclusion, per-id fetch (decryption failures are skipped via `.ok()`),
and the final `created_at`-descending sort. -/
def searchFinish (db : Db) (idx : TagIndex) (excludeTags : List String)
    (cand : List Uuid) : Except VaultError (List ImageEntry) := do
  let remaining ← applyExcludes idx cand excludeTags
  let found := remaining.filterMap fun i => lookupA i db.entries
  Except.ok (List.insertionSort createdDesc found)

/-- The body of `Vault::search_by_tags` under `with_data`. -/
def searchCore (db : Db) (idx : TagIndex) (includeTags excludeTags : List String) :
    Except VaultError (List ImageEntry) := do
  let sets ← collectBuckets idx includeTags
  if includeTags.isEmpty then
    searchFinish db idx excludeTags ((Db.get_all_entries db).map ImageEntry.id)
  else
    let ssorted := List.insertionSort lenLE sets
    let first := ssorted.headD []
    if first.isEmpty then Except.ok []
    else
      let res := ssorted.tail.foldl (fun r s => r.filter fun i => decide (i ∈ s)) first
      -- The Rust loop returns Ok(vec![]) as soon as the running
      -- intersection is empty, before the exclude tags are ever
      -- normalized; an empty intersection stays empty under further
      -- intersections, so testing after the fold takes the same path.
      if res.isEmpty then Except.ok []
      else searchFinish db idx excludeTags res

def Vault.search_by_tags (v : Vault) (includeTags excludeTags : List String) :
    Except VaultError (List ImageEntry) :=
  if includeTags.isEmpty && excludeTags.isEmpty then v.list_images
  else v.withData fun data => searchCore v.db data.tag_index includeTags excludeTags

/-! ### Operation sequences for the tag-index invariant -/

inductive TagOp
  | tag : Uuid → String → TagOp
  | untag : Uuid → String → TagOp
  | rename : String → String → TagOp

/-- Run one tag operation, keeping the vault unchanged when it errors
(each operation above returns the untouched vault on every error path). -/
def applyTagOp (v : Vault) : TagOp → Vault
  | .tag id t =>
    match v.tag_image id t with
    | .ok r => r.2
    | .error _ => v
  | .untag id t =>
    match v.untag_image id t with
    | .ok r => r.2
    | .error _ => v
  | .rename o n =>
    match v.rename_tag o n with
    | .ok r => r.2
    | .error _ => v

def applyTagOps (v : Vault) (ops : List TagOp) : Vault :=
  ops.foldl applyTagOp v

/-! ### Invariants of the tag index -/

/-- The claimed invariant: for every stored entry `E` and tag `T`,
`T ∈ E.tags ⇔ E.id ∈ TagIndex[T]`, and the index holds no empty bucket. -/
def TagIndexOk (db : Db) (idx : TagIndex) : Prop :=
  (∀ id e, lookupA id db.entries = some e →
    ∀ t, t ∈ e.tags ↔ id ∈ lookupBucket idx t) ∧
  (∀ t s, lookupA t idx = some s → s ≠ [])

/-- Strengthened induction invariant: the claimed one plus structural
facts the code maintains — buckets are hash sets (duplicate-free), and
stored entries are keyed by their own id with duplicate-free tag lists. -/
def VaultInvStrong (db : Db) (idx : TagIndex) : Prop :=
  TagIndexOk db idx ∧
  (∀ t s, lookupA t idx = some s → s.Nodup) ∧
  (∀ id e, lookupA id db.entries = some e → e.id = id ∧ e.tags.Nodup)

def VaultInv (v : Vault) : Prop :=
  ∀ data, v.data = some data → VaultInvStrong v.db data.tag_index

/-- The effect of the `rename_tag` rewrite loop on one entry. -/
def renameEntry (o n : String) (e : ImageEntry) : ImageEntry :=
  if o ∈ e.tags then
    { e with tags :=
        if n ∈ e.tags.erase o then e.tags.erase o else e.tags.erase o ++ [n] }
  else e

/-! ### Concrete states used by witnesses and counterexamples -/

/-- An all-zero 32-byte master key. -/
def sampleKey : List Byte := List.replicate 32 0

/-- A vault in the NeedsSetup state: no salt, no master-key check, locked. -/
def freshVault : Vault := ⟨⟨1, 0, none, none⟩, ⟨[]⟩, [], none⟩

/-- A set-up vault in the Locked state (no in-RAM unlocked data). -/
def lockedVault : Vault :=
  ⟨⟨1, 0, some (List.replicate 16 3), some (List.replicate 72 1)⟩, ⟨[]⟩, [], none⟩

def entryA : ImageEntry := ⟨1, "image/png", 4, 100, [.original], ["a"], []⟩

def entryB : ImageEntry := ⟨2, "image/png", 4, 100, [.original], ["a"], []⟩

def entryC : ImageEntry := ⟨3, "image/png", 4, 100, [.original], ["a"], []⟩

/-- An unlocked vault with three entries sharing `created_at = 100`, all
tagged `"a"`, whose `"a"` bucket iterates in the order `[2, 1, 3]`. -/
def searchVault : Vault :=
  ⟨⟨1, 0, some [], some []⟩, ⟨[(2, entryB), (1, entryA), (3, entryC)]⟩, [],
    some ⟨[("a", [2, 1, 3])], sampleKey⟩⟩

def entryDel : ImageEntry := ⟨7, "image/png", 4, 50, [.original], ["a", "b"], []⟩

/-- An unlocked vault holding the single entry `entryDel` (id 7, tags
`a` and `b`); id 9 also carries tag `b`. -/
def delVault : Vault :=
  ⟨⟨1, 0, some [], some []⟩, ⟨[(7, entryDel)]⟩, [],
    some ⟨[("a", [7]), ("b", [7, 9])], sampleKey⟩⟩

def wSalt : List Byte := List.replicate 16 3

def wMaster : List Byte := List.replicate 32 9

/-- A well-formed master-key check blob for password `"pw"`. -/
def wCheck : List Byte :=
  List.replicate 24 5 ++ aeadSeal (derive_key "pw" wSalt) (List.replicate 24 5) [] wMaster

/-- A set-up, locked vault holding one tagged entry, unlockable with
`"pw"`. -/
def invVault0 : Vault := ⟨⟨1, 0, some wSalt, some wCheck⟩, ⟨[(1, entryA)]⟩, [], none⟩

/-- `invVault0` right after a successful unlock. -/
def invVault1 : Vault :=
  { invVault0 with
    data := some ⟨build_tag_index (Db.get_all_entries invVault0.db), wMaster⟩ }

/-- The order "created_at descending, ties broken by ascending id". -/
def createdDescThenIdAsc (a b : ImageEntry) : Prop :=
  b.created_at < a.created_at ∨ (b.created_at = a.created_at ∧ a.id ≤ b.id)

instance : DecidableRel createdDescThenIdAsc := fun a b => by
  unfold createdDescThenIdAsc
  infer_instance

/-- The order "created_at descending, ties broken by descending id". -/
def createdDescThenIdDesc (a b : ImageEntry) : Prop :=
  b.created_at < a.created_at ∨ (b.created_at = a.created_at ∧ b.id ≤ a.id)

instance : DecidableRel createdDescThenIdDesc := fun a b => by
  unfold createdDescThenIdDesc
  infer_instance

/-! ### Helper lemmas and claim theorems -/

theorem lookupA_dropKey_ne {κ β : Type} [DecidableEq κ] (l : List (κ × β)) (k k0 : κ)
    (h : k ≠ k0) :
    lookupA k (dropKey k0 l) = lookupA k l := by
  induction l with
  | nil => rfl
  | cons p rest ih =>
    unfold dropKey at ih ⊢
    rw [List.filter_cons]
    by_cases hp : p.1 = k0
    · have hpk : ¬ p.1 = k := by
        rw [hp]
        exact fun he => h he.symm
      rw [if_neg (by simp [hp]),
        show lookupA k (p :: rest) = if p.1 = k then some p.2 else lookupA k rest from rfl,
        if_neg hpk]
      exact ih
    · rw [if_pos (by simp [hp])]
      by_cases hk : p.1 = k
      · simp [lookupA, hk]
      · simp only [lookupA, if_neg hk]
        exact ih

theorem lookupA_dropKey_self {κ β : Type} [DecidableEq κ] (l : List (κ × β)) (k0 : κ) :
    lookupA k0 (dropKey k0 l) = none := by
  induction l with
  | nil => rfl
  | cons p rest ih =>
    unfold dropKey at ih ⊢
    rw [List.filter_cons]
    by_cases hp : p.1 = k0
    · rw [if_neg (by simp [hp])]
      exact ih
    · rw [if_pos (by simp [hp])]
      simp only [lookupA, if_neg hp]
      exact ih

theorem lookupA_setA_self {κ β : Type} [DecidableEq κ] (l : List (κ × β)) (k : κ) (b : β) :
    lookupA k (setA l k b) = some b := by
  simp [setA, lookupA]

theorem lookupA_setA_ne {κ β : Type} [DecidableEq κ] (l : List (κ × β)) (k k0 : κ) (b : β)
    (h : k ≠ k0) : lookupA k (setA l k0 b) = lookupA k l := by
  have := lookupA_dropKey_ne l k k0 h
  simp [setA, lookupA, Ne.symm h, this]

theorem lookupA_eraseA_self {κ β : Type} [DecidableEq κ] (l : List (κ × β)) (k : κ) :
    lookupA k (eraseA l k) = none := lookupA_dropKey_self l k

theorem lookupA_eraseA_ne {κ β : Type} [DecidableEq κ] (l : List (κ × β)) (k k0 : κ)
    (h : k ≠ k0) : lookupA k (eraseA l k0) = lookupA k l := lookupA_dropKey_ne l k k0 h

theorem lookupA_eq_none_iff {κ β : Type} [DecidableEq κ] (l : List (κ × β)) (k : κ) :
    lookupA k l = none ↔ ∀ p ∈ l, p.1 ≠ k := by
  induction l with
  | nil => simp [lookupA]
  | cons p rest ih =>
    by_cases hp : p.1 = k
    · simp [lookupA, hp]
    · simp [lookupA, hp, ih]

theorem mem_of_lookupA_eq_some {κ β : Type} [DecidableEq κ] {l : List (κ × β)} {k : κ} {b : β}
    (h : lookupA k l = some b) : (k, b) ∈ l := by
  induction l with
  | nil => simp [lookupA] at h
  | cons p rest ih =>
    by_cases hp : p.1 = k
    · simp [lookupA, hp] at h
      have : p = (k, b) := by
        cases p
        simp at hp h
        simp [hp, h]
      rw [← this]
      exact List.mem_cons_self _ _
    · simp [lookupA, hp] at h
      exact List.mem_cons_of_mem _ (ih h)

theorem lookupA_eq_some_of_mem {κ β : Type} [DecidableEq κ] {l : List (κ × β)} {k : κ} {b : β}
    (hnd : (l.map Prod.fst).Nodup) (h : (k, b) ∈ l) : lookupA k l = some b := by
  induction l with
  | nil => simp at h
  | cons p rest ih =>
    rw [List.map_cons, List.nodup_cons] at hnd
    rcases List.mem_cons.mp h with h1 | h2
    · subst h1
      simp [lookupA]
    · have hne : p.1 ≠ k := by
        intro he
        exact hnd.1 (by
          rw [he]
          exact List.mem_map_of_mem Prod.fst h2)
      simp [lookupA, hne, ih hnd.2 h2]

theorem xorStreamFrom_length (key nonce : List Byte) (i : Nat) (l : List Byte) :
    (xorStreamFrom key nonce i l).length = l.length := by
  induction l generalizing i with
  | nil => rfl
  | cons b bs ih => simp [xorStreamFrom, ih]

theorem xorStreamFrom_involutive (key nonce : List Byte) (i : Nat) (l : List Byte)
    (hl : ∀ b ∈ l, b < 256) :
    xorStreamFrom key nonce i (xorStreamFrom key nonce i l) = l := by
  induction l generalizing i with
  | nil => rfl
  | cons b bs ih =>
    have hb : b < 256 := hl b (List.mem_cons_self _ _)
    have hxor : (b ^^^ streamByte key nonce i) % 256 = b ^^^ streamByte key nonce i := by
      apply Nat.mod_eq_of_lt
      have h256 : (256 : Nat) = 2 ^ 8 := by norm_num
      have hs : streamByte key nonce i < 256 := by
        unfold streamByte
        exact Nat.mod_lt _ (by norm_num)
      calc b ^^^ streamByte key nonce i < 2 ^ 8 :=
            Nat.xor_lt_two_pow (h256 ▸ hb) (h256 ▸ hs)
        _ = 256 := by norm_num
    simp only [xorStreamFrom, hxor]
    rw [Nat.xor_cancel_right]
    have hbmod : b % 256 = b := Nat.mod_eq_of_lt hb
    rw [hbmod]
    exact congrArg (b :: ·) (ih (i + 1) (fun x hx => hl x (List.mem_cons_of_mem _ hx)))

theorem polyTag_length (key nonce aad ct : List Byte) :
    (polyTag key nonce aad ct).length = 16 := by
  simp [polyTag]

theorem aead_roundtrip (key nonce aad pt : List Byte)
    (hpt : ∀ b ∈ pt, b < 256) :
    aeadOpen key nonce aad (aeadSeal key nonce aad pt) = some pt := by
  have hctlen : (xorStream key nonce pt).length = pt.length :=
    xorStreamFrom_length key nonce 0 pt
  have hlen : (aeadSeal key nonce aad pt).length = pt.length + 16 := by
    simp [aeadSeal, hctlen, polyTag_length]
  unfold aeadOpen
  rw [if_neg (by omega)]
  have hsub : (aeadSeal key nonce aad pt).length - 16 = (xorStream key nonce pt).length := by
    rw [hlen, hctlen]
    omega
  have htake : (aeadSeal key nonce aad pt).take ((aeadSeal key nonce aad pt).length - 16) =
      xorStream key nonce pt := by
    rw [hsub]
    exact List.take_left _ _
  have hdrop : (aeadSeal key nonce aad pt).drop ((aeadSeal key nonce aad pt).length - 16) =
      polyTag key nonce aad (xorStream key nonce pt) := by
    rw [hsub]
    exact List.drop_left _ _
  simp only [htake, hdrop, if_pos rfl]
  exact congrArg some (xorStreamFrom_involutive key nonce 0 pt hpt)

theorem sealed_length (key nonce aad pt : List Byte) :
    (aeadSeal key nonce aad pt).length = pt.length + 16 := by
  simp [aeadSeal, xorStream, xorStreamFrom_length, polyTag_length]

theorem cryptoDecrypt_of_sealed (key pt aad nonce : List Byte)
    (hk : key.length = 32) (hn : nonce.length = 24) (hpt : ∀ b ∈ pt, b < 256) :
    cryptoDecrypt key (nonce ++ aeadSeal key nonce aad pt) aad = .ok pt := by
  have hseal := sealed_length key nonce aad pt
  unfold cryptoDecrypt
  rw [if_neg (by simp only [List.length_append, hn, hseal]; omega),
    if_neg (by rw [hk]; simp)]
  rw [List.take_left' hn, List.drop_left' hn]
  rw [aead_roundtrip key nonce aad pt hpt]

theorem cryptoEncrypt_eq_ok (key pt aad nonce : List Byte) (hk : key.length = 32) :
    cryptoEncrypt key pt aad nonce = .ok (nonce ++ aeadSeal key nonce aad pt) := by
  simp [cryptoEncrypt, hk]

/-- C6: for every 32-byte key, plaintext and associated data, `encrypt`
returns `nonce || ciphertext_with_tag` of length `24 + |plaintext| + 16`
whose first 24 bytes are the nonce, and `decrypt` with the same key and
aad recovers the original plaintext. -/
theorem encrypt_decrypt_roundtrip (key pt aad nonce : List Byte)
    (hk : key.length = 32) (hn : nonce.length = 24) (hpt : ∀ b ∈ pt, b < 256) :
    ∃ blob, cryptoEncrypt key pt aad nonce = .ok blob ∧
      blob.take 24 = nonce ∧
      blob.length = 24 + pt.length + 16 ∧
      cryptoDecrypt key blob aad = .ok pt := by
  have hseal := sealed_length key nonce aad pt
  refine ⟨nonce ++ aeadSeal key nonce aad pt, cryptoEncrypt_eq_ok key pt aad nonce hk, ?_, ?_,
    cryptoDecrypt_of_sealed key pt aad nonce hk hn hpt⟩
  · rw [← hn]
    exact List.take_left _ _
  · simp only [List.length_append, hn, hseal]
    omega

/-- C6 witness: the round-trip evaluated at a concrete key, plaintext,
aad and nonce. -/
theorem encrypt_decrypt_roundtrip_witness :
    ∃ blob,
      cryptoEncrypt (List.replicate 32 1) [10, 20, 30] [9] (List.replicate 24 2) = .ok blob ∧
      blob.take 24 = List.replicate 24 2 ∧
      blob.length = 24 + 3 + 16 ∧
      cryptoDecrypt (List.replicate 32 1) blob [9] = .ok [10, 20, 30] :=
  encrypt_decrypt_roundtrip (List.replicate 32 1) [10, 20, 30] [9] (List.replicate 24 2)
    (by decide) (by decide) (by decide)

theorem derive_key_length (password : String) (salt : List Byte) :
    (derive_key password salt).length = 32 := by
  simp [derive_key]

/-- C9: `normalize_tag` succeeds exactly when the lowercased-then-trimmed
input is non-empty, at most 32 UTF-8 bytes long, and made of alphanumeric
(Unicode, not only ASCII) characters, `-`, or `_`; the 32 limit counts
bytes, so seventeen two-byte letters are rejected as too long while
`"café"` is accepted. -/
theorem normalize_tag_spec :
    (∀ s : String,
      (∃ t, normalizeTag s = .ok t) ↔
        (rustTrim (rustToLowercase s) ≠ "" ∧
         (rustTrim (rustToLowercase s)).utf8ByteSize ≤ 32 ∧
         ∀ c ∈ (rustTrim (rustToLowercase s)).toList,
           (isRustAlphanumeric c || c = '-' || c = '_') = true)) ∧
    normalizeTag (String.mk (List.replicate 17 'é')) = .error (.corruption "Tag too long") ∧
    normalizeTag "café" = .ok "café" := by
  refine ⟨fun s => ?_, by decide, by decide⟩
  unfold normalizeTag
  by_cases h1 : rustTrim (rustToLowercase s) = ""
  · rw [if_pos h1]
    constructor
    · rintro ⟨t, ht⟩
      exact absurd ht (by simp)
    · rintro ⟨hne, -, -⟩
      exact absurd h1 hne
  · rw [if_neg h1]
    by_cases h2 : 32 < (rustTrim (rustToLowercase s)).utf8ByteSize
    · rw [if_pos h2]
      constructor
      · rintro ⟨t, ht⟩
        exact absurd ht (by simp)
      · rintro ⟨-, hle, -⟩
        exact absurd h2 (by omega)
    · rw [if_neg h2]
      by_cases h3 : ((rustTrim (rustToLowercase s)).toList.all
          fun c => isRustAlphanumeric c || c = '-' || c = '_') = true
      · rw [if_neg (not_not_intro h3)]
        constructor
        · intro _
          refine ⟨h1, by omega, ?_⟩
          intro c hc
          exact List.all_eq_true.mp h3 c hc
        · intro _
          exact ⟨rustTrim (rustToLowercase s), rfl⟩
      · rw [if_pos h3]
        constructor
        · rintro ⟨t, ht⟩
          exact absurd ht (by simp)
        · rintro ⟨-, -, hall⟩
          exact absurd (List.all_eq_true.mpr hall) h3

theorem exceptBind_ok {ε α β : Type} (a : α) (f : α → Except ε β) :
    (Except.ok a : Except ε α) >>= f = f a := rfl

theorem exceptBind_err {ε α β : Type} (e : ε) (f : α → Except ε β) :
    (Except.error e : Except ε α) >>= f = Except.error e := rfl

/-- C1 (code-bug evidence): on a vault in the NeedsSetup state,
`setup("pw-A")` returns Ok, but no unlocked state is installed:
`is_unlocked()` is `false` and `list_images()` fails with
`EncryptionError` instead of returning the empty list.  The spec's state
machine, and the adapter's own "Vault initialized and unlocked" response
(`api.rs` line 159), both expect the Unlocked state here. -/
theorem setup_leaves_vault_locked :
    freshVault.needs_setup = true ∧
    (freshVault.setup "pw-A" (List.replicate 32 7) (List.replicate 16 3)
        (List.replicate 24 5)).map
      (fun v2 => (v2.is_unlocked, v2.list_images)) =
    .ok (false, .error .encryptionError) := by
  constructor
  · rfl
  · decide

/-- C3 counterexample: every Unlocked-requiring operation, called on a
Locked vault, returns `EncryptionError` — not a `Locked` kind, which
`VaultError` (the embedding of `error.rs`) does not even contain. -/
theorem locked_ops_counterexample :
    lockedVault.list_images = .error .encryptionError ∧
    lockedVault.list_tags = .error .encryptionError ∧
    lockedVault.tag_image 1 "a" = .error .encryptionError ∧
    lockedVault.untag_image 1 "a" = .error .encryptionError ∧
    lockedVault.rename_tag "a" "b" = .error .encryptionError ∧
    lockedVault.search_by_tags ["a"] [] = .error .encryptionError ∧
    lockedVault.retrieve_image 1 .original = .error .encryptionError ∧
    lockedVault.store_image "image/png" 4 [] 5 0 (fun _ => List.replicate 24 0) =
      .error .encryptionError ∧
    (lockedVault.delete_image 1 fun _ => none).result = .error .encryptionError := by
  decide

/-- C3 (amended): each core operation requiring Unlocked, called while no
unlocked state is present, returns `VaultError::EncryptionError` (the
core has no `Locked` error kind; the adapter produces the 403 by checking
`is_unlocked` in its auth middleware).  Tag arguments are normalized
before the state is consulted, so they must be valid; `rename_tag`
additionally short-circuits to `Ok(0)` when both tags normalize equal. -/
theorem locked_ops_return_encryption_error (v : Vault) (hv : v.data = none)
    (id : Uuid) (variant : ImageVariant) (mm : String) (sz now : Nat)
    (vars : List (ImageVariant × List Byte)) (nonces : ImageVariant → List Byte)
    (rm : Uuid → Option IoErrorKind)
    (t oldT newT tn no nn : String)
    (ht : normalizeTag t = .ok tn)
    (ho : normalizeTag oldT = .ok no)
    (hm : normalizeTag newT = .ok nn)
    (hone : no ≠ nn)
    (incs excs : List String) :
    v.store_image mm sz vars id now nonces = .error .encryptionError ∧
    v.retrieve_image id variant = .error .encryptionError ∧
    (v.delete_image id rm).result = .error .encryptionError ∧
    v.tag_image id t = .error .encryptionError ∧
    v.untag_image id t = .error .encryptionError ∧
    v.rename_tag oldT newT = .error .encryptionError ∧
    v.search_by_tags incs excs = .error .encryptionError ∧
    v.list_images = .error .encryptionError ∧
    v.list_tags = .error .encryptionError := by
  refine ⟨?_, ?_, ?_, ?_, ?_, ?_, ?_, ?_, ?_⟩
  · simp [Vault.store_image, hv]
  · simp [Vault.retrieve_image, hv]
  · simp [Vault.delete_image, hv]
  · simp [Vault.tag_image, ht, hv, exceptBind_ok]
  · simp [Vault.untag_image, ht, hv, exceptBind_ok]
  · simp [Vault.rename_tag, ho, hm, hone, hv, exceptBind_ok]
  · by_cases hq : (incs.isEmpty && excs.isEmpty) = true
    · simp [Vault.search_by_tags, hq, Vault.list_images, Vault.withData, hv]
    · simp [Vault.search_by_tags, hq, Vault.withData, hv]
  · simp [Vault.list_images, Vault.withData, hv]
  · simp [Vault.list_tags, Vault.withData, hv]

/-- C3 witness: the amended statement applied to the concrete locked
vault. -/
theorem locked_ops_return_encryption_error_witness :
    lockedVault.store_image "image/png" 4 [] 5 0 (fun _ => List.replicate 24 0) =
      .error .encryptionError ∧
    lockedVault.retrieve_image 5 .high = .error .encryptionError ∧
    (lockedVault.delete_image 5 fun _ => none).result = .error .encryptionError ∧
    lockedVault.tag_image 5 "x" = .error .encryptionError ∧
    lockedVault.untag_image 5 "x" = .error .encryptionError ∧
    lockedVault.rename_tag "x" "y" = .error .encryptionError ∧
    lockedVault.search_by_tags [] ["x"] = .error .encryptionError ∧
    lockedVault.list_images = .error .encryptionError ∧
    lockedVault.list_tags = .error .encryptionError :=
  locked_ops_return_encryption_error lockedVault rfl 5 .high "image/png" 4 0 []
    (fun _ => List.replicate 24 0) (fun _ => none) "x" "x" "y" "x" "x" "y"
    (by decide) (by decide) (by decide) (by decide) [] ["x"]

/-- C10: deleting an id with no record in the entries partition returns
`Ok(())` (not `NotFound`: `Database::remove_entry` is a bare tree remove
and `delete_image` ignores the failed entry fetch) and leaves the entries
partition and the tag index unchanged. -/
theorem delete_absent_id_ok (v : Vault) (data : VaultData) (id : Uuid)
    (rm : Uuid → Option IoErrorKind)
    (hd : v.data = some data)
    (habsent : lookupA id v.db.entries = none)
    (hrm : rm id = none ∨ rm id = some IoErrorKind.notFound) :
    (v.delete_image id rm).result = .ok () ∧
    (v.delete_image id rm).vault.db.entries = v.db.entries ∧
    (v.delete_image id rm).vault.data = some data := by
  have hfilter : v.db.entries.filter (fun p => !decide (p.1 = id)) = v.db.entries := by
    apply List.filter_eq_self.mpr
    intro p hp
    simp [(lookupA_eq_none_iff v.db.entries id).mp habsent p hp]
  have hrdir : removeDirsEff rm v.blobs [id] =
      (Except.ok (), [VEffect.fsRemoveDirAll id],
        if rm id = none then v.blobs.filter (fun p => !decide (p.1.1 = id)) else v.blobs) := by
    rcases hrm with h | h <;> simp [removeDirsEff, h]
  refine ⟨?_, ?_, ?_⟩ <;>
    simp [Vault.delete_image, hd, habsent, Db.remove_entry, eraseA, dropKey, hfilter, hrdir]

/-- C10 witness: deleting the absent id 99 on the concrete unlocked
vault. -/
theorem delete_absent_id_ok_witness :
    (searchVault.delete_image 99 fun _ => some IoErrorKind.notFound).result = .ok () ∧
    (searchVault.delete_image 99 fun _ => some IoErrorKind.notFound).vault.db.entries =
      searchVault.db.entries ∧
    (searchVault.delete_image 99 fun _ => some IoErrorKind.notFound).vault.data =
      some ⟨[("a", [2, 1, 3])], sampleKey⟩ :=
  delete_absent_id_ok searchVault ⟨[("a", [2, 1, 3])], sampleKey⟩ 99
    (fun _ => some IoErrorKind.notFound) rfl (by decide) (Or.inr rfl)

/-- C8: `tag_image` is idempotent — running it twice from any state with
the entry present yields the same returned entry and the same final
vault as running it once; and `untag_image` of a tag absent from the
entry returns the entry and leaves the vault unchanged. -/
theorem tag_untag_idempotent (v : Vault) (data : VaultData) (id : Uuid) (e : ImageEntry)
    (t tn : String)
    (hd : v.data = some data)
    (he : lookupA id v.db.entries = some e)
    (hid : e.id = id)
    (ht : normalizeTag t = .ok tn) :
    (∃ e1 v1, v.tag_image id t = .ok (e1, v1) ∧ v1.tag_image id t = .ok (e1, v1)) ∧
    (tn ∉ e.tags → v.untag_image id t = .ok (e, v)) := by
  constructor
  · by_cases hmem : tn ∈ e.tags
    · exact ⟨e, v, by simp [Vault.tag_image, ht, hd, Db.get_entry, he, hmem, exceptBind_ok],
        by simp [Vault.tag_image, ht, hd, Db.get_entry, he, hmem, exceptBind_ok]⟩
    · refine ⟨{ e with tags := e.tags ++ [tn] },
        { v with
          db := v.db.insert_entry { e with tags := e.tags ++ [tn] },
          data := some { data with tag_index := addToBucket data.tag_index tn id } },
        by simp [Vault.tag_image, ht, hd, Db.get_entry, he, hmem, exceptBind_ok], ?_⟩
      have hlook : lookupA id (v.db.insert_entry { e with tags := e.tags ++ [tn] }).entries =
          some { e with tags := e.tags ++ [tn] } := by
        have : ({ e with tags := e.tags ++ [tn] } : ImageEntry).id = id := hid
        rw [Db.insert_entry, this]
        exact lookupA_setA_self _ _ _
      simp [Vault.tag_image, ht, Db.get_entry, hlook, exceptBind_ok]
  · intro hnot
    simp [Vault.untag_image, ht, hd, Db.get_entry, he, hnot, exceptBind_ok]

/-- C8 witness: tagging entry 1 of the concrete vault twice with `"b"`,
and untagging the absent `"b"`. -/
theorem tag_untag_idempotent_witness :
    (∃ e1 v1, searchVault.tag_image 1 "b" = .ok (e1, v1) ∧
      v1.tag_image 1 "b" = .ok (e1, v1)) ∧
    ("b" ∉ entryA.tags → searchVault.untag_image 1 "b" = .ok (entryA, searchVault)) :=
  tag_untag_idempotent searchVault ⟨[("a", [2, 1, 3])], sampleKey⟩ 1 entryA "b" "b"
    rfl (by decide) rfl (by decide)

theorem filename_injective : ∀ a b : ImageVariant, a.filename = b.filename → a = b := by
  intro a b h
  cases a <;> cases b <;> first
    | rfl
    | exact absurd h (by decide)

theorem writeVariants_ok (key : List Byte) (id : Uuid) (nonces : ImageVariant → List Byte)
    (hk : key.length = 32) :
    ∀ (l : List (ImageVariant × List Byte)) (blobs : BlobStore),
      ∃ bl, writeVariants key id nonces blobs l = .ok bl ∧
        (∀ k2, (∀ p ∈ l, k2 ≠ (id, p.1.filename)) → lookupA k2 bl = lookupA k2 blobs) ∧
        ((l.map Prod.fst).Nodup →
          ∀ p ∈ l, lookupA (id, p.1.filename) bl =
            some (nonces p.1 ++ aeadSeal key (nonces p.1) (make_aad id p.1.filename) p.2)) := by
  intro l
  induction l with
  | nil =>
    intro blobs
    exact ⟨blobs, rfl, fun k2 _ => rfl, fun _ p hp => absurd hp (List.not_mem_nil p)⟩
  | cons p rest ih =>
    intro blobs
    obtain ⟨bl, heq, hpres, hlook⟩ := ih (setA blobs (id, p.1.filename)
      (nonces p.1 ++ aeadSeal key (nonces p.1) (make_aad id p.1.filename) p.2))
    refine ⟨bl, ?_, ?_, ?_⟩
    · simp [writeVariants,
        cryptoEncrypt_eq_ok key p.2 (make_aad id p.1.filename) (nonces p.1) hk,
        exceptBind_ok, heq]
    · intro k2 hk2
      rw [hpres k2 (fun q hq => hk2 q (List.mem_cons_of_mem _ hq))]
      exact lookupA_setA_ne _ _ _ _ (hk2 p (List.mem_cons_self _ _))
    · intro hnd q hq
      rw [List.map_cons, List.nodup_cons] at hnd
      rcases List.mem_cons.mp hq with h1 | h2
      · subst h1
        have hne : ∀ r ∈ rest, ((id, q.1.filename) : Uuid × String) ≠ (id, r.1.filename) := by
          intro r hr hcontr
          simp only [Prod.mk.injEq, true_and] at hcontr
          exact hnd.1 (filename_injective q.1 r.1 hcontr ▸ List.mem_map_of_mem Prod.fst hr)
        rw [hpres (id, q.1.filename) hne]
        exact lookupA_setA_self _ _ _
      · exact hlook hnd.2 q h2

/-- C2: on an unlocked vault, storing a list of variant payloads with
distinct variants and then retrieving any one of them returns exactly the
stored bytes, with the entry's MIME for `Original` and the literal
`"image/webp"` for every other variant. -/
theorem store_retrieve_roundtrip (v : Vault) (data : VaultData) (mm : String) (sz : Nat)
    (variants : List (ImageVariant × List Byte)) (id : Uuid) (now : Nat)
    (nonces : ImageVariant → List Byte)
    (hd : v.data = some data)
    (_hmime : mm ∈ allowedImageTypes)
    (hkey : data.encryption_key.length = 32)
    (hnonce : ∀ var, (nonces var).length = 24)
    (hbytes : ∀ p ∈ variants, ∀ b ∈ p.2, b < 256)
    (hdistinct : (variants.map Prod.fst).Nodup) :
    ∃ entry v1, v.store_image mm sz variants id now nonces = .ok (entry, v1) ∧
      entry.id = id ∧
      ∀ p ∈ variants, v1.retrieve_image id p.1 =
        .ok (p.2, if p.1 = ImageVariant.original then mm else "image/webp") := by
  obtain ⟨bl, heq, hpres, hlook⟩ :=
    writeVariants_ok data.encryption_key id nonces hkey variants v.blobs
  refine ⟨⟨id, mm, sz, now, variants.map Prod.fst, [], []⟩,
    { v with
      blobs := bl,
      db := v.db.insert_entry ⟨id, mm, sz, now, variants.map Prod.fst, [], []⟩ }, ?_, rfl, ?_⟩
  · simp [Vault.store_image, hd, heq, exceptBind_ok]
  · intro p hp
    have hgot : lookupA id
        (v.db.insert_entry ⟨id, mm, sz, now, variants.map Prod.fst, [], []⟩).entries =
        some ⟨id, mm, sz, now, variants.map Prod.fst, [], []⟩ := by
      rw [Db.insert_entry]
      exact lookupA_setA_self _ _ _
    have hmemvar : p.1 ∈ variants.map Prod.fst := List.mem_map_of_mem Prod.fst hp
    have henc := hlook hdistinct p hp
    have hdec := cryptoDecrypt_of_sealed data.encryption_key p.2 (make_aad id p.1.filename)
      (nonces p.1) hkey (hnonce p.1) (hbytes p hp)
    simp [Vault.retrieve_image, hd, Db.get_entry, hgot, hmemvar, henc, hdec, exceptBind_ok]
    cases hp1 : p.1 <;> simp [ImageVariant.mime]

/-- C2 witness: storing an Original and a Thumbnail payload on the
concrete unlocked vault and retrieving both. -/
theorem store_retrieve_roundtrip_witness :
    ∃ entry v1,
      searchVault.store_image "image/png" 2 [(.original, [10, 20]), (.thumbnail, [30])]
        42 200 (fun _ => List.replicate 24 6) = .ok (entry, v1) ∧
      entry.id = 42 ∧
      ∀ p ∈ ([(.original, [10, 20]), (.thumbnail, [30])] :
          List (ImageVariant × List Byte)),
        v1.retrieve_image 42 p.1 =
          .ok (p.2, if p.1 = ImageVariant.original then "image/png" else "image/webp") :=
  store_retrieve_roundtrip searchVault ⟨[("a", [2, 1, 3])], sampleKey⟩ "image/png" 2
    [(.original, [10, 20]), (.thumbnail, [30])] 42 200 (fun _ => List.replicate 24 6)
    rfl (by decide) (by decide) (fun _ => rfl) (by decide) (by decide)

theorem lookupA_removeFromBucket (idx : TagIndex) (t : String) (id : Uuid) (t2 : String) :
    lookupA t2 (removeFromBucket idx t id) =
      if t2 = t then
        (match lookupA t idx with
          | none => none
          | some s =>
            if (s.filter fun x => !decide (x = id)).isEmpty then none
            else some (s.filter fun x => !decide (x = id)))
      else lookupA t2 idx := by
  unfold removeFromBucket
  cases hidx : lookupA t idx with
  | none =>
    dsimp only
    by_cases h : t2 = t
    · subst h
      rw [if_pos rfl]
      exact hidx
    · rw [if_neg h]
  | some s =>
    dsimp only
    by_cases hemp : ((s.filter fun x => !decide (x = id)).isEmpty) = true
    · rw [if_pos hemp, if_pos hemp]
      by_cases h : t2 = t
      · subst h
        rw [lookupA_eraseA_self, if_pos rfl]
      · rw [lookupA_eraseA_ne _ _ _ h, if_neg h]
    · rw [if_neg hemp, if_neg hemp]
      by_cases h : t2 = t
      · subst h
        rw [lookupA_setA_self, if_pos rfl]
      · rw [lookupA_setA_ne _ _ _ _ h, if_neg h]

theorem filter_id_idem (l : List Uuid) (id : Uuid) :
    ((l.filter fun x => !decide (x = id)).filter fun x => !decide (x = id)) =
      l.filter fun x => !decide (x = id) := by
  induction l with
  | nil => rfl
  | cons x xs ih =>
    by_cases hx : x = id
    · simp [List.filter_cons, hx, ih]
    · simp [List.filter_cons, hx, ih]

theorem lookupA_removeAll (tags : List String) (idx : TagIndex) (id : Uuid) (t2 : String) :
    lookupA t2 (tags.foldl (fun ix t => removeFromBucket ix t id) idx) =
      if t2 ∈ tags then
        (match lookupA t2 idx with
          | none => none
          | some s =>
            if (s.filter fun x => !decide (x = id)).isEmpty then none
            else some (s.filter fun x => !decide (x = id)))
      else lookupA t2 idx := by
  induction tags generalizing idx with
  | nil => simp
  | cons t ts ih =>
    rw [List.foldl_cons, ih (removeFromBucket idx t id)]
    by_cases hmem : t2 ∈ ts
    · rw [if_pos hmem, if_pos (List.mem_cons_of_mem _ hmem), lookupA_removeFromBucket]
      by_cases h : t2 = t
      · subst h
        rw [if_pos rfl]
        cases hx : lookupA t2 idx with
        | none => simp
        | some s =>
          by_cases hemp : ((s.filter fun x => !decide (x = id)).isEmpty) = true
          · simp [hemp]
          · simp [hemp, filter_id_idem]
      · rw [if_neg h]
    · rw [if_neg hmem, lookupA_removeFromBucket]
      by_cases h : t2 = t
      · subst h
        rw [if_pos rfl, if_pos (List.mem_cons_self _ _)]
      · rw [if_neg h, if_neg (by simp [h, hmem])]

/-- C7 counterexample: deleting the present entry 7 performs exactly
[read entry, remove record, remove directory]: no flush of the metadata
store happens anywhere on the path (`Database::remove_entry` is a bare
tree remove and `delete_image` never calls `flush`), while the claim
asserts a flush between the record removal and the directory removal. -/
theorem delete_no_flush_counterexample :
    (delVault.delete_image 7 fun _ => none).effects =
      [VEffect.dbGetEntry 7, VEffect.dbRemoveEntry 7, VEffect.fsRemoveDirAll 7] ∧
    VEffect.dbFlush ∉ (delVault.delete_image 7 fun _ => none).effects := by
  decide

/-- C7 (amended): `delete_image` on a present entry decrypts it for its
tags, removes the id from each of those tag buckets (pruning buckets
that become empty), removes the entries record, then attempts the
directory removal — in that order, with NO flush; a NotFound from the
directory removal is tolerated, any other I/O error kind is returned
(with the database and index updates already applied). -/
theorem delete_present_behavior (v : Vault) (data : VaultData) (id : Uuid) (e : ImageEntry)
    (rm : Uuid → Option IoErrorKind)
    (hd : v.data = some data)
    (he : lookupA id v.db.entries = some e)
    (hlinked : e.linked_images = []) :
    (v.delete_image id rm).effects =
      [VEffect.dbGetEntry id, VEffect.dbRemoveEntry id, VEffect.fsRemoveDirAll id] ∧
    VEffect.dbFlush ∉ (v.delete_image id rm).effects ∧
    lookupA id (v.delete_image id rm).vault.db.entries = none ∧
    (∀ id2, id2 ≠ id →
      lookupA id2 (v.delete_image id rm).vault.db.entries = lookupA id2 v.db.entries) ∧
    (∃ data2, (v.delete_image id rm).vault.data = some data2 ∧
      ∀ t2, lookupA t2 data2.tag_index =
        if t2 ∈ e.tags then
          (match lookupA t2 data.tag_index with
            | none => none
            | some s =>
              if (s.filter fun x => !decide (x = id)).isEmpty then none
              else some (s.filter fun x => !decide (x = id)))
        else lookupA t2 data.tag_index) ∧
    ((rm id = none ∨ rm id = some IoErrorKind.notFound) →
      (v.delete_image id rm).result = .ok ()) ∧
    (∀ k, rm id = some k → k ≠ IoErrorKind.notFound →
      (v.delete_image id rm).result = .error (.ioErr k)) := by
  have hr21 : (removeDirsEff rm v.blobs [id]).2.1 = [VEffect.fsRemoveDirAll id] := by
    cases hrm : rm id with
    | none => simp [removeDirsEff, hrm]
    | some k =>
      by_cases hk : k = IoErrorKind.notFound <;> simp [removeDirsEff, hrm, hk]
  refine ⟨?_, ?_, ?_, ?_, ?_, ?_, ?_⟩
  · simp [Vault.delete_image, hd, he, hlinked, hr21]
  · simp [Vault.delete_image, hd, he, hlinked, hr21]
  · simp only [Vault.delete_image, hd, he, hlinked, Db.remove_entry]
    exact lookupA_eraseA_self _ _
  · intro id2 hne
    simp only [Vault.delete_image, hd, he, hlinked, Db.remove_entry]
    exact lookupA_eraseA_ne _ _ _ hne
  · refine ⟨{ data with
        tag_index := e.tags.foldl (fun ix t => removeFromBucket ix t id) data.tag_index },
      ?_, ?_⟩
    · simp [Vault.delete_image, hd, he, hlinked]
    · intro t2
      exact lookupA_removeAll e.tags data.tag_index id t2
  · intro hok
    have : (removeDirsEff rm v.blobs [id]).1 = Except.ok () := by
      rcases hok with h | h <;> simp [removeDirsEff, h]
    simp [Vault.delete_image, hd, he, hlinked, this]
  · intro k hk hknf
    have : (removeDirsEff rm v.blobs [id]).1 = Except.error (.ioErr k) := by
      simp [removeDirsEff, hk, hknf]
    simp [Vault.delete_image, hd, he, hlinked, this]

/-- C7 witness: deleting entry 7 (tags `a`, `b`; bucket `a` becomes empty
and is pruned, bucket `b` keeps id 9) with a succeeding directory
removal. -/
theorem delete_present_behavior_witness :
    (delVault.delete_image 7 fun _ => none).effects =
      [VEffect.dbGetEntry 7, VEffect.dbRemoveEntry 7, VEffect.fsRemoveDirAll 7] ∧
    VEffect.dbFlush ∉ (delVault.delete_image 7 fun _ => none).effects ∧
    lookupA 7 (delVault.delete_image 7 fun _ => none).vault.db.entries = none ∧
    (∀ id2, id2 ≠ 7 →
      lookupA id2 (delVault.delete_image 7 fun _ => none).vault.db.entries =
        lookupA id2 delVault.db.entries) ∧
    (∃ data2, (delVault.delete_image 7 fun _ => none).vault.data = some data2 ∧
      ∀ t2, lookupA t2 data2.tag_index =
        if t2 ∈ entryDel.tags then
          (match lookupA t2 ([("a", [7]), ("b", [7, 9])] : TagIndex) with
            | none => none
            | some s =>
              if (s.filter fun x => !decide (x = 7)).isEmpty then none
              else some (s.filter fun x => !decide (x = 7)))
        else lookupA t2 ([("a", [7]), ("b", [7, 9])] : TagIndex)) ∧
    (((fun _ : Uuid => (none : Option IoErrorKind)) 7 = none ∨
        (fun _ : Uuid => (none : Option IoErrorKind)) 7 = some IoErrorKind.notFound) →
      (delVault.delete_image 7 fun _ => none).result = .ok ()) ∧
    (∀ k, (fun _ : Uuid => (none : Option IoErrorKind)) 7 = some k →
      k ≠ IoErrorKind.notFound →
      (delVault.delete_image 7 fun _ => none).result = .error (.ioErr k)) :=
  delete_present_behavior delVault ⟨[("a", [7]), ("b", [7, 9])], sampleKey⟩ 7 entryDel
    (fun _ => none) rfl (by decide) rfl

theorem lookupA_insert_entry (db : Db) (e : ImageEntry) (id2 : Uuid) :
    lookupA id2 (db.insert_entry e).entries =
      if id2 = e.id then some e else lookupA id2 db.entries := by
  unfold Db.insert_entry
  by_cases h : id2 = e.id
  · subst h
    rw [if_pos rfl]
    exact lookupA_setA_self _ _ _
  · rw [if_neg h]
    exact lookupA_setA_ne _ _ _ _ h

theorem lookupA_addToBucket (idx : TagIndex) (t : String) (id : Uuid) (t2 : String) :
    lookupA t2 (addToBucket idx t id) =
      if t2 = t then
        some (if id ∈ lookupBucket idx t then lookupBucket idx t
          else id :: lookupBucket idx t)
      else lookupA t2 idx := by
  unfold addToBucket
  by_cases h : t2 = t
  · subst h
    rw [if_pos rfl]
    exact lookupA_setA_self _ _ _
  · rw [if_neg h]
    exact lookupA_setA_ne _ _ _ _ h

theorem lookupBucket_addToBucket (idx : TagIndex) (t : String) (id : Uuid) (t2 : String) :
    lookupBucket (addToBucket idx t id) t2 =
      if t2 = t then
        (if id ∈ lookupBucket idx t then lookupBucket idx t else id :: lookupBucket idx t)
      else lookupBucket idx t2 := by
  unfold lookupBucket
  rw [lookupA_addToBucket]
  by_cases h : t2 = t
  · rw [if_pos h, if_pos h]
    rfl
  · rw [if_neg h, if_neg h]

theorem mem_lookupBucket_addToBucket (idx : TagIndex) (t : String) (id : Uuid)
    (t2 : String) (x : Uuid) :
    x ∈ lookupBucket (addToBucket idx t id) t2 ↔
      x ∈ lookupBucket idx t2 ∨ (t2 = t ∧ x = id) := by
  rw [lookupBucket_addToBucket]
  by_cases h : t2 = t
  · subst h
    rw [if_pos rfl]
    by_cases hm : id ∈ lookupBucket idx t2
    · rw [if_pos hm]
      constructor
      · intro hx
        exact Or.inl hx
      · rintro (hx | ⟨-, rfl⟩)
        · exact hx
        · exact hm
    · rw [if_neg hm]
      simp only [List.mem_cons]
      tauto
  · rw [if_neg h]
    simp [h]

theorem lookupBucket_nodup (idx : TagIndex)
    (hnd : ∀ t s, lookupA t idx = some s → s.Nodup) (t : String) :
    (lookupBucket idx t).Nodup := by
  unfold lookupBucket
  cases h : lookupA t idx with
  | none => simp
  | some s => exact hnd t s h

theorem lookupBucket_removeFromBucket (idx : TagIndex) (t : String) (id : Uuid)
    (t2 : String) :
    lookupBucket (removeFromBucket idx t id) t2 =
      if t2 = t then (lookupBucket idx t2).filter (fun x => !decide (x = id))
      else lookupBucket idx t2 := by
  unfold lookupBucket
  rw [lookupA_removeFromBucket]
  by_cases h : t2 = t
  · subst h
    rw [if_pos rfl, if_pos rfl]
    cases hx : lookupA t2 idx with
    | none => simp
    | some s =>
      by_cases hemp : ((s.filter fun x => !decide (x = id)).isEmpty) = true
      · simp only [hemp, if_true, Option.getD_none, Option.getD_some]
        exact (List.isEmpty_iff.mp hemp).symm
      · simp [hemp]
  · rw [if_neg h, if_neg h]

theorem mem_foldl_insert (olds : List Uuid) (base : List Uuid) (x : Uuid) :
    x ∈ olds.foldl (fun s i => if i ∈ s then s else s ++ [i]) base ↔
      x ∈ base ∨ x ∈ olds := by
  induction olds generalizing base with
  | nil => simp
  | cons i rest ih =>
    rw [List.foldl_cons, ih]
    by_cases hm : i ∈ base
    · rw [if_pos hm]
      constructor
      · rintro (h | h)
        · exact Or.inl h
        · exact Or.inr (List.mem_cons_of_mem _ h)
      · rintro (h | h)
        · exact Or.inl h
        · rcases List.mem_cons.mp h with rfl | h2
          · exact Or.inl hm
          · exact Or.inr h2
    · rw [if_neg hm]
      simp only [List.mem_append, List.mem_cons, List.mem_singleton]
      tauto

theorem nodup_foldl_insert (olds : List Uuid) (base : List Uuid) (h : base.Nodup) :
    (olds.foldl (fun s i => if i ∈ s then s else s ++ [i]) base).Nodup := by
  induction olds generalizing base with
  | nil => exact h
  | cons i rest ih =>
    rw [List.foldl_cons]
    by_cases hm : i ∈ base
    · rw [if_pos hm]
      exact ih base h
    · rw [if_neg hm]
      apply ih
      simp [List.nodup_append, h, hm]

theorem foldl_insert_ne_nil (olds : List Uuid) (base : List Uuid) (h : olds ≠ []) :
    olds.foldl (fun s i => if i ∈ s then s else s ++ [i]) base ≠ [] := by
  cases olds with
  | nil => exact absurd rfl h
  | cons i rest =>
    intro hcontr
    have hmem : i ∈ (i :: rest).foldl (fun s i => if i ∈ s then s else s ++ [i]) base :=
      (mem_foldl_insert _ _ _).mpr (Or.inr (List.mem_cons_self _ _))
    rw [hcontr] at hmem
    exact absurd hmem (List.not_mem_nil _)

theorem foldl_preserve {α β : Type} (P : β → Prop) (f : β → α → β)
    (hstep : ∀ b a, P b → P (f b a)) : ∀ (l : List α) (b : β), P b → P (l.foldl f b) := by
  intro l
  induction l with
  | nil => exact fun b hb => hb
  | cons a rest ih => exact fun b hb => ih (f b a) (hstep b a hb)

theorem vaultInv_tag_image (v : Vault) (hinv : VaultInv v) (id : Uuid) (t : String) :
    VaultInv (applyTagOp v (.tag id t)) := by
  rw [show applyTagOp v (.tag id t) =
    (match v.tag_image id t with | .ok r => r.2 | .error _ => v) from rfl]
  cases hres : v.tag_image id t with
  | error _ => exact hinv
  | ok r =>
    unfold Vault.tag_image at hres
    cases hnt : normalizeTag t with
    | error err =>
      rw [hnt] at hres
      simp [exceptBind_err] at hres
    | ok tn =>
      rw [hnt, exceptBind_ok] at hres
      cases hd : v.data with
      | none =>
        rw [hd] at hres
        simp at hres
      | some data =>
        rw [hd] at hres
        cases hge : lookupA id v.db.entries with
        | none =>
          simp [Db.get_entry, hge, exceptBind_err] at hres
        | some e =>
          simp only [Db.get_entry, hge, exceptBind_ok] at hres
          obtain ⟨⟨heq, hne⟩, hnd, hwf⟩ := hinv data hd
          have hid : e.id = id := (hwf id e hge).1
          have htnodup : e.tags.Nodup := (hwf id e hge).2
          by_cases hmem : tn ∈ e.tags
          · rw [if_pos hmem] at hres
            injection hres with hres2
            rw [← hres2]
            exact hinv
          · rw [if_neg hmem] at hres
            injection hres with hres2
            rw [← hres2]
            intro data1 hd1
            simp only [Option.some.injEq] at hd1
            rw [← hd1]
            refine ⟨⟨?_, ?_⟩, ?_, ?_⟩
            · intro id2 e3 hlk t2
              rw [lookupA_insert_entry,
                show ({ e with tags := e.tags ++ [tn] } : ImageEntry).id = e.id from rfl,
                hid] at hlk
              by_cases hcase : id2 = id
              · rw [if_pos hcase] at hlk
                injection hlk with hlk2
                rw [← hlk2]
                subst hcase
                rw [mem_lookupBucket_addToBucket]
                constructor
                · intro ht2
                  rcases List.mem_append.mp ht2 with h | h
                  · exact Or.inl ((heq id2 e hge t2).mp h)
                  · exact Or.inr ⟨List.mem_singleton.mp h, rfl⟩
                · rintro (h | ⟨rfl, -⟩)
                  · exact List.mem_append.mpr (Or.inl ((heq id2 e hge t2).mpr h))
                  · exact List.mem_append.mpr (Or.inr (List.mem_singleton.mpr rfl))
              · rw [if_neg hcase] at hlk
                rw [mem_lookupBucket_addToBucket]
                constructor
                · intro ht2
                  exact Or.inl ((heq id2 e3 hlk t2).mp ht2)
                · rintro (h | ⟨rfl, rfl⟩)
                  · exact (heq id2 e3 hlk t2).mpr h
                  · exact absurd rfl hcase
            · intro t2 s hlk
              rw [lookupA_addToBucket] at hlk
              by_cases h2 : t2 = tn
              · rw [if_pos h2] at hlk
                injection hlk with hlk2
                rw [← hlk2]
                by_cases hm : id ∈ lookupBucket data.tag_index tn
                · rw [if_pos hm]
                  exact List.ne_nil_of_mem hm
                · rw [if_neg hm]
                  simp
              · rw [if_neg h2] at hlk
                exact hne t2 s hlk
            · intro t2 s hlk
              rw [lookupA_addToBucket] at hlk
              by_cases h2 : t2 = tn
              · rw [if_pos h2] at hlk
                injection hlk with hlk2
                rw [← hlk2]
                by_cases hm : id ∈ lookupBucket data.tag_index tn
                · rw [if_pos hm]
                  exact lookupBucket_nodup data.tag_index hnd tn
                · rw [if_neg hm]
                  exact List.nodup_cons.mpr ⟨hm, lookupBucket_nodup data.tag_index hnd tn⟩
              · rw [if_neg h2] at hlk
                exact hnd t2 s hlk
            · intro id2 e3 hlk
              rw [lookupA_insert_entry,
                show ({ e with tags := e.tags ++ [tn] } : ImageEntry).id = e.id from rfl,
                hid] at hlk
              by_cases hcase : id2 = id
              · rw [if_pos hcase] at hlk
                injection hlk with hlk2
                rw [← hlk2]
                refine ⟨by rw [hcase], ?_⟩
                simp [List.nodup_append, htnodup, hmem]
              · rw [if_neg hcase] at hlk
                exact hwf id2 e3 hlk

theorem vaultInv_untag_image (v : Vault) (hinv : VaultInv v) (id : Uuid) (t : String) :
    VaultInv (applyTagOp v (.untag id t)) := by
  rw [show applyTagOp v (.untag id t) =
    (match v.untag_image id t with | .ok r => r.2 | .error _ => v) from rfl]
  cases hres : v.untag_image id t with
  | error _ => exact hinv
  | ok r =>
    unfold Vault.untag_image at hres
    cases hnt : normalizeTag t with
    | error err =>
      rw [hnt] at hres
      simp [exceptBind_err] at hres
    | ok tn =>
      rw [hnt, exceptBind_ok] at hres
      cases hd : v.data with
      | none =>
        rw [hd] at hres
        simp at hres
      | some data =>
        rw [hd] at hres
        cases hge : lookupA id v.db.entries with
        | none =>
          simp [Db.get_entry, hge, exceptBind_err] at hres
        | some e =>
          simp only [Db.get_entry, hge, exceptBind_ok] at hres
          obtain ⟨⟨heq, hne⟩, hnd, hwf⟩ := hinv data hd
          have hid : e.id = id := (hwf id e hge).1
          have htnodup := (hwf id e hge).2
          by_cases hmem : tn ∈ e.tags
          · rw [if_pos hmem] at hres
            injection hres with hres2
            rw [← hres2]
            intro data1 hd1
            simp only [Option.some.injEq] at hd1
            rw [← hd1]
            refine ⟨⟨?_, ?_⟩, ?_, ?_⟩
            · intro id2 e3 hlk t2
              rw [lookupA_insert_entry,
                show ({ e with tags := e.tags.erase tn } : ImageEntry).id = e.id from rfl,
                hid] at hlk
              rw [show id2 ∈ lookupBucket (removeFromBucket data.tag_index tn id) t2 ↔
                  id2 ∈ (if t2 = tn then
                    (lookupBucket data.tag_index t2).filter (fun x => !decide (x = id))
                  else lookupBucket data.tag_index t2) from by
                rw [lookupBucket_removeFromBucket]]
              by_cases hcase : id2 = id
              · rw [if_pos hcase] at hlk
                injection hlk with hlk2
                rw [← hlk2]
                subst hcase
                by_cases h2 : t2 = tn
                · subst h2
                  rw [if_pos rfl]
                  constructor
                  · intro hcontr
                    exact absurd rfl ((htnodup.mem_erase_iff).mp hcontr).1
                  · intro hcontr
                    have hfalse := (List.mem_filter.mp hcontr).2
                    simp at hfalse
                · rw [if_neg h2, List.mem_erase_of_ne h2]
                  exact heq id2 e hge t2
              · rw [if_neg hcase] at hlk
                by_cases h2 : t2 = tn
                · subst h2
                  rw [if_pos rfl]
                  constructor
                  · intro h3
                    exact List.mem_filter.mpr ⟨(heq id2 e3 hlk _).mp h3, by simp [hcase]⟩
                  · intro h3
                    exact (heq id2 e3 hlk _).mpr (List.mem_filter.mp h3).1
                · rw [if_neg h2]
                  exact heq id2 e3 hlk t2
            · intro t2 s hlk
              rw [lookupA_removeFromBucket] at hlk
              by_cases h2 : t2 = tn
              · rw [if_pos h2] at hlk
                cases hx : lookupA tn data.tag_index with
                | none =>
                  rw [hx] at hlk
                  simp at hlk
                | some s0 =>
                  rw [hx] at hlk
                  dsimp only at hlk
                  by_cases hemp : ((s0.filter fun x => !decide (x = id)).isEmpty) = true
                  · simp [hemp] at hlk
                  · rw [if_neg hemp] at hlk
                    injection hlk with hlk2
                    intro hc
                    exact hemp (List.isEmpty_iff.mpr (hlk2.trans hc))
              · rw [if_neg h2] at hlk
                exact hne t2 s hlk
            · intro t2 s hlk
              rw [lookupA_removeFromBucket] at hlk
              by_cases h2 : t2 = tn
              · rw [if_pos h2] at hlk
                cases hx : lookupA tn data.tag_index with
                | none =>
                  rw [hx] at hlk
                  simp at hlk
                | some s0 =>
                  rw [hx] at hlk
                  dsimp only at hlk
                  by_cases hemp : ((s0.filter fun x => !decide (x = id)).isEmpty) = true
                  · simp [hemp] at hlk
                  · rw [if_neg hemp] at hlk
                    injection hlk with hlk2
                    rw [← hlk2]
                    exact (hnd tn s0 hx).filter _
              · rw [if_neg h2] at hlk
                exact hnd t2 s hlk
            · intro id2 e3 hlk
              rw [lookupA_insert_entry,
                show ({ e with tags := e.tags.erase tn } : ImageEntry).id = e.id from rfl,
                hid] at hlk
              by_cases hcase : id2 = id
              · rw [if_pos hcase] at hlk
                injection hlk with hlk2
                rw [← hlk2]
                exact ⟨by rw [hcase], htnodup.erase tn⟩
              · rw [if_neg hcase] at hlk
                exact hwf id2 e3 hlk
          · rw [if_neg hmem] at hres
            injection hres with hres2
            rw [← hres2]
            exact hinv

theorem renameEntry_id (o n : String) (e : ImageEntry) : (renameEntry o n e).id = e.id := by
  unfold renameEntry
  split <;> rfl

theorem rename_fold_lookup (o n : String) (ids : List Uuid) :
    ∀ (c : Nat) (db : Db),
      (∀ id2 e, lookupA id2 db.entries = some e → e.id = id2) → ids.Nodup →
      ∀ id2, lookupA id2 (ids.foldl (renameStep o n) (c, db)).2.entries =
        if id2 ∈ ids then (lookupA id2 db.entries).map (renameEntry o n)
        else lookupA id2 db.entries := by
  induction ids with
  | nil =>
    intro c db _ _ id2
    simp
  | cons i rest ih =>
    intro c db hwf hnd id2
    rw [List.nodup_cons] at hnd
    rw [List.foldl_cons]
    cases hgi : lookupA i db.entries with
    | none =>
      rw [show renameStep o n (c, db) i = (c, db) from by
        unfold renameStep
        rw [show ((c, db) : Nat × Db).2 = db from rfl, hgi]]
      rw [ih c db hwf hnd.2 id2]
      by_cases h2 : id2 = i
      · subst h2
        rw [if_neg (fun hc => hnd.1 hc), if_pos (List.mem_cons_self _ _), hgi]
        rfl
      · by_cases hm : id2 ∈ rest
        · rw [if_pos hm, if_pos (List.mem_cons_of_mem _ hm)]
        · rw [if_neg hm, if_neg (by simp [h2, hm])]
    | some e =>
      have hie : e.id = i := hwf i e hgi
      by_cases ho : o ∈ e.tags
      · have hstep : renameStep o n (c, db) i = (c + 1, db.insert_entry { e with tags := if n ∈ e.tags.erase o then e.tags.erase o else e.tags.erase o ++ [n] }) := by
          unfold renameStep
          rw [show ((c, db) : Nat × Db).2 = db from rfl, hgi]
          dsimp only
          rw [if_pos ho]
        have hsameid : ({ e with tags := if n ∈ e.tags.erase o then e.tags.erase o else e.tags.erase o ++ [n] } : ImageEntry).id = e.id := rfl
        rw [hstep]
        have hwf1 : ∀ id3 e3, lookupA id3 (db.insert_entry { e with tags := if n ∈ e.tags.erase o then e.tags.erase o else e.tags.erase o ++ [n] }).entries = some e3 → e3.id = id3 := by
          intro id3 e3 h3
          rw [lookupA_insert_entry] at h3
          by_cases hc : id3 = ({ e with tags := if n ∈ e.tags.erase o then e.tags.erase o else e.tags.erase o ++ [n] } : ImageEntry).id
          · rw [if_pos hc] at h3
            injection h3 with h4
            rw [← h4]
            exact hc.symm
          · rw [if_neg hc] at h3
            exact hwf id3 e3 h3
        rw [ih (c + 1) _ hwf1 hnd.2 id2]
        by_cases h2 : id2 = i
        · subst h2
          rw [if_neg (fun hc => hnd.1 hc), if_pos (List.mem_cons_self _ _), hgi,
            lookupA_insert_entry, if_pos (by rw [hsameid, hie])]
          simp [renameEntry, ho]
        · have hpass : lookupA id2 (db.insert_entry { e with tags := if n ∈ e.tags.erase o then e.tags.erase o else e.tags.erase o ++ [n] }).entries = lookupA id2 db.entries := by
            rw [lookupA_insert_entry, if_neg (by rw [hsameid, hie]; exact h2)]
          rw [hpass]
          by_cases hm : id2 ∈ rest
          · rw [if_pos hm, if_pos (List.mem_cons_of_mem _ hm)]
          · rw [if_neg hm, if_neg (by simp [h2, hm])]
      · rw [show renameStep o n (c, db) i = (c, db) from by
          unfold renameStep
          rw [show ((c, db) : Nat × Db).2 = db from rfl, hgi]
          dsimp only
          rw [if_neg ho]]
        rw [ih c db hwf hnd.2 id2]
        by_cases h2 : id2 = i
        · subst h2
          rw [if_neg (fun hc => hnd.1 hc), if_pos (List.mem_cons_self _ _), hgi]
          simp [renameEntry, ho]
        · by_cases hm : id2 ∈ rest
          · rw [if_pos hm, if_pos (List.mem_cons_of_mem _ hm)]
          · rw [if_neg hm, if_neg (by simp [h2, hm])]

theorem vaultInv_rename_tag (v : Vault) (hinv : VaultInv v) (oldT newT : String) :
    VaultInv (applyTagOp v (.rename oldT newT)) := by
  rw [show applyTagOp v (.rename oldT newT) =
    (match v.rename_tag oldT newT with | .ok r => r.2 | .error _ => v) from rfl]
  cases hres : v.rename_tag oldT newT with
  | error _ => exact hinv
  | ok r =>
    unfold Vault.rename_tag at hres
    cases hno : normalizeTag oldT with
    | error err =>
      rw [hno] at hres
      simp [exceptBind_err] at hres
    | ok o =>
      rw [hno, exceptBind_ok] at hres
      cases hnn : normalizeTag newT with
      | error err =>
        rw [hnn] at hres
        simp [exceptBind_err] at hres
      | ok n =>
        rw [hnn, exceptBind_ok] at hres
        by_cases heqon : o = n
        · rw [if_pos heqon] at hres
          injection hres with h2
          rw [← h2]
          exact hinv
        · rw [if_neg heqon] at hres
          cases hd : v.data with
          | none =>
            rw [hd] at hres
            simp at hres
          | some data =>
            rw [hd] at hres
            dsimp only at hres
            by_cases hids : (lookupBucket data.tag_index o).isEmpty = true
            · rw [if_pos hids] at hres
              injection hres with h2
              rw [← h2]
              exact hinv
            · rw [if_neg hids] at hres
              cases hro : lookupA o data.tag_index with
              | none =>
                exact absurd (by unfold lookupBucket; rw [hro]; rfl) hids
              | some olds =>
                rw [hro] at hres
                dsimp only at hres
                injection hres with h2
                rw [← h2]
                have holds : lookupBucket data.tag_index o = olds := by
                  unfold lookupBucket
                  rw [hro]
                  rfl
                have holdsne : olds ≠ [] := by
                  intro hc
                  apply hids
                  rw [holds, hc]
                  rfl
                obtain ⟨⟨heq, hne⟩, hnd, hwf⟩ := hinv data hd
                have holdnd : olds.Nodup := hnd o olds hro
                have hwf0 : ∀ id2 e, lookupA id2 v.db.entries = some e → e.id = id2 :=
                  fun id2 e h => (hwf id2 e h).1
                have hfold := rename_fold_lookup o n (lookupBucket data.tag_index o) 0 v.db
                  hwf0 (holds ▸ holdnd)
                have hbo : lookupA o (extendBucket (eraseA data.tag_index o) n olds) = none := by
                  unfold extendBucket
                  rw [lookupA_setA_ne _ _ _ _ heqon]
                  exact lookupA_eraseA_self _ _
                have hbase : lookupBucket (eraseA data.tag_index o) n =
                    lookupBucket data.tag_index n := by
                  unfold lookupBucket
                  rw [lookupA_eraseA_ne _ _ _ (Ne.symm heqon)]
                have hbn : lookupA n (extendBucket (eraseA data.tag_index o) n olds) =
                    some (olds.foldl (fun s i => if i ∈ s then s else s ++ [i])
                      (lookupBucket data.tag_index n)) := by
                  unfold extendBucket
                  rw [lookupA_setA_self, hbase]
                have hbother : ∀ t2, t2 ≠ o → t2 ≠ n →
                    lookupA t2 (extendBucket (eraseA data.tag_index o) n olds) =
                      lookupA t2 data.tag_index := by
                  intro t2 h2 h3
                  unfold extendBucket
                  rw [lookupA_setA_ne _ _ _ _ h3, lookupA_eraseA_ne _ _ _ h2]
                intro data1 hd1
                simp only [Option.some.injEq] at hd1
                rw [← hd1]
                refine ⟨⟨?_, ?_⟩, ?_, ?_⟩
                · intro id2 e3 hlk t2
                  rw [hfold id2] at hlk
                  by_cases hin : id2 ∈ lookupBucket data.tag_index o
                  · rw [if_pos hin] at hlk
                    cases hg0 : lookupA id2 v.db.entries with
                    | none =>
                      rw [hg0] at hlk
                      simp at hlk
                    | some e =>
                      rw [hg0] at hlk
                      rw [show (some e).map (renameEntry o n) =
                        some (renameEntry o n e) from rfl] at hlk
                      injection hlk with h3
                      rw [← h3]
                      have hoe : o ∈ e.tags := (heq id2 e hg0 o).mpr hin
                      have htnodup := (hwf id2 e hg0).2
                      have hrtags : (renameEntry o n e).tags =
                          if n ∈ e.tags.erase o then e.tags.erase o
                          else e.tags.erase o ++ [n] := by
                        simp [renameEntry, hoe]
                      rw [hrtags]
                      have hrbo : lookupBucket
                          (extendBucket (eraseA data.tag_index o) n olds) o = [] := by
                        unfold lookupBucket
                        rw [hbo]
                        rfl
                      have hrbn2 : id2 ∈ lookupBucket
                          (extendBucket (eraseA data.tag_index o) n olds) n := by
                        unfold lookupBucket
                        rw [hbn]
                        exact (mem_foldl_insert _ _ _).mpr (Or.inr (holds ▸ hin))
                      by_cases h2 : t2 = o
                      · rw [h2, hrbo]
                        constructor
                        · intro h4
                          by_cases hx2 : n ∈ e.tags.erase o
                          · rw [if_pos hx2] at h4
                            exact absurd rfl ((htnodup.mem_erase_iff).mp h4).1
                          · rw [if_neg hx2] at h4
                            rcases List.mem_append.mp h4 with h5 | h5
                            · exact absurd rfl ((htnodup.mem_erase_iff).mp h5).1
                            · exact absurd (List.mem_singleton.mp h5) heqon
                        · intro h4
                          exact absurd h4 (List.not_mem_nil _)
                      · by_cases h3 : t2 = n
                        · rw [h3]
                          have hmemn : n ∈ (if n ∈ e.tags.erase o then e.tags.erase o
                              else e.tags.erase o ++ [n]) := by
                            by_cases hx2 : n ∈ e.tags.erase o
                            · rw [if_pos hx2]
                              exact hx2
                            · rw [if_neg hx2]
                              exact List.mem_append.mpr
                                (Or.inr (List.mem_singleton.mpr rfl))
                          exact ⟨fun _ => hrbn2, fun _ => hmemn⟩
                        · have hb2 : lookupBucket
                              (extendBucket (eraseA data.tag_index o) n olds) t2 =
                              lookupBucket data.tag_index t2 := by
                            unfold lookupBucket
                            rw [hbother t2 h2 h3]
                          rw [hb2]
                          have hiff : (t2 ∈ (if n ∈ e.tags.erase o then e.tags.erase o
                              else e.tags.erase o ++ [n])) ↔ t2 ∈ e.tags := by
                            by_cases hx2 : n ∈ e.tags.erase o
                            · rw [if_pos hx2]
                              exact List.mem_erase_of_ne h2
                            · rw [if_neg hx2]
                              rw [List.mem_append]
                              constructor
                              · rintro (h4 | h4)
                                · exact (List.mem_erase_of_ne h2).mp h4
                                · exact absurd (List.mem_singleton.mp h4) h3
                              · intro h4
                                exact Or.inl ((List.mem_erase_of_ne h2).mpr h4)
                          rw [hiff]
                          exact heq id2 e hg0 t2
                  · rw [if_neg hin] at hlk
                    by_cases h2 : t2 = o
                    · have hrbo : lookupBucket
                          (extendBucket (eraseA data.tag_index o) n olds) o = [] := by
                        unfold lookupBucket
                        rw [hbo]
                        rfl
                      rw [h2, hrbo]
                      constructor
                      · intro h4
                        exact absurd (holds ▸ (heq id2 e3 hlk o).mp (h2 ▸ h4)) hin
                      · intro h4
                        exact absurd h4 (List.not_mem_nil _)
                    · by_cases h3 : t2 = n
                      · rw [h3]
                        have hrbn : (id2 ∈ lookupBucket
                            (extendBucket (eraseA data.tag_index o) n olds) n) ↔
                            id2 ∈ lookupBucket data.tag_index n := by
                          unfold lookupBucket
                          rw [hbn]
                          rw [show ((some (olds.foldl
                            (fun s i => if i ∈ s then s else s ++ [i])
                            (lookupBucket data.tag_index n))).getD []) = olds.foldl
                            (fun s i => if i ∈ s then s else s ++ [i])
                            (lookupBucket data.tag_index n) from rfl]
                          rw [mem_foldl_insert]
                          constructor
                          · rintro (h4 | h4)
                            · exact h4
                            · exact absurd (holds ▸ h4) hin
                          · exact Or.inl
                        rw [hrbn]
                        exact heq id2 e3 hlk n
                      · have hb2 : lookupBucket
                            (extendBucket (eraseA data.tag_index o) n olds) t2 =
                            lookupBucket data.tag_index t2 := by
                          unfold lookupBucket
                          rw [hbother t2 h2 h3]
                        rw [hb2]
                        exact heq id2 e3 hlk t2
                · intro t2 s hlk
                  by_cases h2 : t2 = o
                  · subst h2
                    rw [hbo] at hlk
                    simp at hlk
                  · by_cases h3 : t2 = n
                    · subst h3
                      rw [hbn] at hlk
                      injection hlk with h4
                      rw [← h4]
                      exact foldl_insert_ne_nil olds _ holdsne
                    · rw [hbother t2 h2 h3] at hlk
                      exact hne t2 s hlk
                · intro t2 s hlk
                  by_cases h2 : t2 = o
                  · subst h2
                    rw [hbo] at hlk
                    simp at hlk
                  · by_cases h3 : t2 = n
                    · subst h3
                      rw [hbn] at hlk
                      injection hlk with h4
                      rw [← h4]
                      exact nodup_foldl_insert olds _ (lookupBucket_nodup _ hnd t2)
                    · rw [hbother t2 h2 h3] at hlk
                      exact hnd t2 s hlk
                · intro id2 e3 hlk
                  rw [hfold id2] at hlk
                  by_cases hin : id2 ∈ lookupBucket data.tag_index o
                  · rw [if_pos hin] at hlk
                    cases hg0 : lookupA id2 v.db.entries with
                    | none =>
                      rw [hg0] at hlk
                      simp at hlk
                    | some e =>
                      rw [hg0] at hlk
                      rw [show (some e).map (renameEntry o n) =
                        some (renameEntry o n e) from rfl] at hlk
                      injection hlk with h3
                      rw [← h3]
                      have hoe : o ∈ e.tags := (heq id2 e hg0 o).mpr hin
                      have htnodup := (hwf id2 e hg0).2
                      refine ⟨by rw [renameEntry_id]; exact (hwf id2 e hg0).1, ?_⟩
                      have hrtags : (renameEntry o n e).tags =
                          if n ∈ e.tags.erase o then e.tags.erase o
                          else e.tags.erase o ++ [n] := by
                        simp [renameEntry, hoe]
                      rw [hrtags]
                      by_cases hx2 : n ∈ e.tags.erase o
                      · rw [if_pos hx2]
                        exact htnodup.erase o
                      · rw [if_neg hx2]
                        simp [List.nodup_append, htnodup.erase o, hx2]
                  · rw [if_neg hin] at hlk
                    exact hwf id2 e3 hlk

theorem mem_lookupBucket_tagsFold (tags : List String) (y : Uuid) (idx0 : TagIndex)
    (t : String) (x : Uuid) :
    x ∈ lookupBucket (tags.foldl (fun ix t2 => addToBucket ix t2 y) idx0) t ↔
      x ∈ lookupBucket idx0 t ∨ (x = y ∧ t ∈ tags) := by
  induction tags generalizing idx0 with
  | nil => simp
  | cons t1 rest ih =>
    rw [List.foldl_cons, ih, mem_lookupBucket_addToBucket]
    simp only [List.mem_cons]
    tauto

theorem mem_lookupBucket_build_aux (entries : List ImageEntry) (idx0 : TagIndex)
    (t : String) (x : Uuid) :
    x ∈ lookupBucket (entries.foldl
        (fun idx e => e.tags.foldl (fun ix t2 => addToBucket ix t2 e.id) idx) idx0) t ↔
      x ∈ lookupBucket idx0 t ∨ ∃ e ∈ entries, e.id = x ∧ t ∈ e.tags := by
  induction entries generalizing idx0 with
  | nil => simp
  | cons e rest ih =>
    rw [List.foldl_cons, ih, mem_lookupBucket_tagsFold]
    simp only [List.mem_cons]
    constructor
    · rintro ((h | ⟨rfl, h2⟩) | ⟨e2, h3, h4, h5⟩)
      · exact Or.inl h
      · exact Or.inr ⟨e, Or.inl rfl, rfl, h2⟩
      · exact Or.inr ⟨e2, Or.inr h3, h4, h5⟩
    · rintro (h | ⟨e2, (rfl | h3), h4, h5⟩)
      · exact Or.inl (Or.inl h)
      · exact Or.inl (Or.inr ⟨h4.symm, h5⟩)
      · exact Or.inr ⟨e2, h3, h4, h5⟩

theorem mem_lookupBucket_build (entries : List ImageEntry) (t : String) (x : Uuid) :
    x ∈ lookupBucket (build_tag_index entries) t ↔
      ∃ e ∈ entries, e.id = x ∧ t ∈ e.tags := by
  unfold build_tag_index
  rw [mem_lookupBucket_build_aux]
  simp [lookupBucket, lookupA]

theorem addToBucket_good (idx : TagIndex) (t : String) (id : Uuid)
    (h : ∀ t2 s, lookupA t2 idx = some s → s ≠ [] ∧ s.Nodup) :
    ∀ t2 s, lookupA t2 (addToBucket idx t id) = some s → s ≠ [] ∧ s.Nodup := by
  intro t2 s hlk
  rw [lookupA_addToBucket] at hlk
  by_cases h2 : t2 = t
  · rw [if_pos h2] at hlk
    injection hlk with h3
    rw [← h3]
    have hbnodup : (lookupBucket idx t).Nodup :=
      lookupBucket_nodup idx (fun a b hh => (h a b hh).2) t
    by_cases hm : id ∈ lookupBucket idx t
    · rw [if_pos hm]
      exact ⟨List.ne_nil_of_mem hm, hbnodup⟩
    · rw [if_neg hm]
      exact ⟨by simp, List.nodup_cons.mpr ⟨hm, hbnodup⟩⟩
  · rw [if_neg h2] at hlk
    exact h t2 s hlk

theorem build_good (entries : List ImageEntry) :
    ∀ t s, lookupA t (build_tag_index entries) = some s → s ≠ [] ∧ s.Nodup := by
  unfold build_tag_index
  refine foldl_preserve (fun idx => ∀ t s, lookupA t idx = some s → s ≠ [] ∧ s.Nodup)
    _ ?_ entries [] ?_
  · intro idx e hidx
    exact foldl_preserve (fun ix => ∀ t s, lookupA t ix = some s → s ≠ [] ∧ s.Nodup)
      _ (fun ix t2 hh => addToBucket_good ix t2 e.id hh) e.tags idx hidx
  · intro t s h
    simp [lookupA] at h

theorem unlock_ok_shape (v0 v1 : Vault) (password : String)
    (h : v0.unlock password = .ok v1) :
    v1.db = v0.db ∧ ∃ key, v1.data =
      some ⟨build_tag_index (Db.get_all_entries v0.db), key⟩ := by
  unfold Vault.unlock at h
  cases hs : v0.metadata.vault_salt with
  | none =>
    rw [hs] at h
    simp [exceptBind_err] at h
  | some salt =>
    rw [hs] at h
    dsimp only at h
    rw [exceptBind_ok] at h
    cases hc : v0.metadata.master_key_check with
    | none =>
      rw [hc] at h
      simp [exceptBind_err] at h
    | some check =>
      rw [hc] at h
      dsimp only at h
      rw [exceptBind_ok] at h
      cases hdec : cryptoDecrypt (derive_key password salt) check [] with
      | error e =>
        rw [hdec] at h
        simp [exceptBind_err] at h
      | ok mk =>
        rw [hdec, exceptBind_ok] at h
        by_cases hlen : mk.length ≠ 32
        · rw [if_pos hlen] at h
          simp at h
        · rw [if_neg hlen] at h
          injection h with h2
          rw [← h2]
          exact ⟨rfl, mk, rfl⟩

/-- C5: starting from the tag index built on unlock, after any sequence of
`tag_image`, `untag_image` and `rename_tag` operations, the index-entry
equivalence holds (for every stored entry `E` and tag `T`,
`T ∈ E.tags ⇔ E.id ∈ TagIndex[T]`) and the index holds no empty bucket. -/
theorem tag_index_invariant (v0 : Vault) (password : String) (v1 : Vault) (ops : List TagOp)
    (hwf : ∀ id e, lookupA id v0.db.entries = some e → e.id = id ∧ e.tags.Nodup)
    (hkeys : (v0.db.entries.map Prod.fst).Nodup)
    (hunlock : v0.unlock password = .ok v1) :
    ∀ data, (applyTagOps v1 ops).data = some data →
      (∀ id e, lookupA id (applyTagOps v1 ops).db.entries = some e →
        ∀ t, t ∈ e.tags ↔ id ∈ lookupBucket data.tag_index t) ∧
      (∀ t s, lookupA t data.tag_index = some s → s ≠ []) := by
  obtain ⟨hdb, key, hdata⟩ := unlock_ok_shape v0 v1 password hunlock
  have hmemga : ∀ e : ImageEntry, e ∈ Db.get_all_entries v0.db ↔
      e ∈ v0.db.entries.map Prod.snd :=
    fun e => (List.perm_insertionSort createdDesc _).mem_iff
  have hinv1 : VaultInv v1 := by
    intro data hd
    rw [hdata] at hd
    injection hd with hd2
    rw [← hd2, hdb]
    refine ⟨⟨?_, ?_⟩, ?_, ?_⟩
    · intro id e hlk t
      rw [mem_lookupBucket_build]
      constructor
      · intro ht
        refine ⟨e, ?_, (hwf id e hlk).1, ht⟩
        exact (hmemga e).mpr (List.mem_map_of_mem Prod.snd (mem_of_lookupA_eq_some hlk))
      · rintro ⟨e2, he2mem, he2id, ht⟩
        obtain ⟨p, hp, hp2⟩ := List.mem_map.mp ((hmemga e2).mp he2mem)
        have hlkp : lookupA p.1 v0.db.entries = some p.2 :=
          lookupA_eq_some_of_mem hkeys hp
        have hpid : p.2.id = p.1 := (hwf p.1 p.2 hlkp).1
        have hp1 : p.1 = id := by
          rw [← hpid, hp2, he2id]
        rw [hp1, hp2] at hlkp
        rw [hlkp] at hlk
        injection hlk with h3
        rw [h3] at ht
        exact ht
    · intro t s hlk
      exact (build_good _ t s hlk).1
    · intro t s hlk
      exact (build_good _ t s hlk).2
    · exact hwf
  have hfinal := foldl_preserve VaultInv applyTagOp (fun v op h => by
    cases op with
    | tag id t => exact vaultInv_tag_image v h id t
    | untag id t => exact vaultInv_untag_image v h id t
    | rename a b => exact vaultInv_rename_tag v h a b) ops v1 hinv1
  intro data hd
  obtain ⟨⟨heq, hne⟩, -, -⟩ := hfinal data hd
  exact ⟨heq, hne⟩

set_option maxRecDepth 100000 in
/-- C5 witness: the invariant after a tag add, a rename and an untag on
the vault unlocked from `invVault0` with password `"pw"`. -/
theorem tag_index_invariant_witness :
    ∃ data, (applyTagOps invVault1
        [TagOp.tag 1 "b", TagOp.rename "a" "c", TagOp.untag 1 "b"]).data = some data ∧
      (∀ id e, lookupA id (applyTagOps invVault1
          [TagOp.tag 1 "b", TagOp.rename "a" "c", TagOp.untag 1 "b"]).db.entries = some e →
        ∀ t, t ∈ e.tags ↔ id ∈ lookupBucket data.tag_index t) ∧
      (∀ t s, lookupA t data.tag_index = some s → s ≠ []) := by
  have hsome : (applyTagOps invVault1
      [TagOp.tag 1 "b", TagOp.rename "a" "c", TagOp.untag 1 "b"]).data.isSome = true := by
    decide
  obtain ⟨data, hd⟩ := Option.isSome_iff_exists.mp hsome
  refine ⟨data, hd, ?_⟩
  refine tag_index_invariant invVault0 "pw" invVault1
    [TagOp.tag 1 "b", TagOp.rename "a" "c", TagOp.untag 1 "b"]
    ?_ (by decide) (by decide) data hd
  intro id e h
  simp only [invVault0, lookupA] at h
  by_cases hc : (1 : Uuid) = id
  · rw [if_pos hc] at h
    injection h with h2
    rw [← h2, ← hc]
    exact ⟨rfl, by decide⟩
  · rw [if_neg hc] at h
    simp at h

theorem collectBuckets_ok (idx : TagIndex) (ts : List String)
    (h : ∀ t ∈ ts, normalizeTag t = .ok t) :
    collectBuckets idx ts = .ok (ts.map (lookupBucket idx)) := by
  induction ts with
  | nil => rfl
  | cons t rest ih =>
    unfold collectBuckets
    rw [h t (List.mem_cons_self _ _), exceptBind_ok,
      ih (fun q hq => h q (List.mem_cons_of_mem _ hq)), exceptBind_ok]
    rfl

theorem applyExcludes_spec (idx : TagIndex) (exc : List String)
    (h : ∀ t ∈ exc, normalizeTag t = .ok t) :
    ∀ cand, ∃ cand2, applyExcludes idx cand exc = .ok cand2 ∧
      (∀ x, x ∈ cand2 ↔ x ∈ cand ∧ ∀ t ∈ exc, x ∉ lookupBucket idx t) ∧
      (cand.Nodup → cand2.Nodup) := by
  induction exc with
  | nil =>
    intro cand
    exact ⟨cand, rfl, by simp, id⟩
  | cons t rest ih =>
    intro cand
    have hnt := h t (List.mem_cons_self _ _)
    have hrest : ∀ q ∈ rest, normalizeTag q = .ok q :=
      fun q hq => h q (List.mem_cons_of_mem _ hq)
    unfold applyExcludes
    rw [hnt, exceptBind_ok]
    cases hx : lookupA t idx with
    | none =>
      obtain ⟨c2, heq2, hmem2, hnd2⟩ := ih hrest cand
      refine ⟨c2, heq2, ?_, hnd2⟩
      intro x
      rw [hmem2 x]
      constructor
      · rintro ⟨h1, h2⟩
        refine ⟨h1, ?_⟩
        intro q hq
        rcases List.mem_cons.mp hq with rfl | hq2
        · simp [lookupBucket, hx]
        · exact h2 q hq2
      · rintro ⟨h1, h2⟩
        exact ⟨h1, fun q hq => h2 q (List.mem_cons_of_mem _ hq)⟩
    | some s =>
      obtain ⟨c2, heq2, hmem2, hnd2⟩ := ih hrest (cand.filter fun i => !decide (i ∈ s))
      refine ⟨c2, heq2, ?_, fun h3 => hnd2 (h3.filter _)⟩
      intro x
      rw [hmem2 x]
      constructor
      · rintro ⟨h1, h2⟩
        have h3 := List.mem_filter.mp h1
        refine ⟨h3.1, ?_⟩
        intro q hq
        rcases List.mem_cons.mp hq with rfl | hq2
        · have h4 : ¬ x ∈ s := by simpa using h3.2
          simpa [lookupBucket, hx] using h4
        · exact h2 q hq2
      · rintro ⟨h1, h2⟩
        have h4 := h2 t (List.mem_cons_self _ _)
        refine ⟨List.mem_filter.mpr ⟨h1, ?_⟩, fun q hq => h2 q (List.mem_cons_of_mem _ hq)⟩
        simpa [lookupBucket, hx] using h4

theorem fetch_spec (db : Db) (hkeys : (db.entries.map Prod.fst).Nodup)
    (hwf : ∀ p ∈ db.entries, p.2.id = p.1) :
    ∀ cand : List Uuid, cand.Nodup →
      ((cand.filterMap fun i => lookupA i db.entries).Nodup ∧
       ∀ e, e ∈ (cand.filterMap fun i => lookupA i db.entries) ↔
         e.id ∈ cand ∧ lookupA e.id db.entries = some e) := by
  have hidof : ∀ (x : Uuid) (e : ImageEntry), lookupA x db.entries = some e → e.id = x :=
    fun x e hx => hwf (x, e) (mem_of_lookupA_eq_some hx)
  intro cand
  induction cand with
  | nil =>
    intro _
    exact ⟨List.nodup_nil, by simp⟩
  | cons i rest ih =>
    intro hnd
    rw [List.nodup_cons] at hnd
    obtain ⟨ihnd, ihm⟩ := ih hnd.2
    cases hx : lookupA i db.entries with
    | none =>
      have hconseq : (i :: rest).filterMap (fun j => lookupA j db.entries) =
          rest.filterMap (fun j => lookupA j db.entries) := by
        simp [List.filterMap_cons, hx]
      rw [hconseq]
      refine ⟨ihnd, ?_⟩
      intro e
      rw [ihm e]
      constructor
      · rintro ⟨h1, h2⟩
        exact ⟨List.mem_cons_of_mem _ h1, h2⟩
      · rintro ⟨h1, h2⟩
        rcases List.mem_cons.mp h1 with heq1 | h3
        · rw [heq1] at h2
          rw [h2] at hx
          cases hx
        · exact ⟨h3, h2⟩
    | some e0 =>
      have hid0 : e0.id = i := hidof i e0 hx
      have hconseq : (i :: rest).filterMap (fun j => lookupA j db.entries) =
          e0 :: rest.filterMap (fun j => lookupA j db.entries) := by
        simp [List.filterMap_cons, hx]
      rw [hconseq]
      constructor
      · rw [List.nodup_cons]
        refine ⟨?_, ihnd⟩
        intro hcon
        have h5 := (ihm e0).mp hcon
        rw [hid0] at h5
        exact hnd.1 h5.1
      · intro e
        rw [List.mem_cons, ihm e]
        constructor
        · rintro (rfl | ⟨h1, h2⟩)
          · rw [hid0]
            exact ⟨List.mem_cons_self _ _, hid0 ▸ hx⟩
          · exact ⟨List.mem_cons_of_mem _ h1, h2⟩
        · rintro ⟨h1, h2⟩
          rcases List.mem_cons.mp h1 with heq1 | h3
          · rw [heq1] at h2
            rw [h2] at hx
            injection hx with h4
            exact Or.inl h4
          · exact Or.inr ⟨h3, h2⟩

theorem fold_filter_mem (ss : List (List Uuid)) :
    ∀ (start : List Uuid) (x : Uuid),
      x ∈ ss.foldl (fun r s => r.filter fun i => decide (i ∈ s)) start ↔
        x ∈ start ∧ ∀ s ∈ ss, x ∈ s := by
  induction ss with
  | nil =>
    intro start x
    simp
  | cons s rest ih =>
    intro start x
    rw [List.foldl_cons, ih]
    rw [List.mem_filter]
    simp only [List.mem_cons, decide_eq_true_eq]
    constructor
    · rintro ⟨⟨h1, h2⟩, h3⟩
      exact ⟨h1, fun q hq => by
        rcases hq with rfl | hq2
        · exact h2
        · exact h3 q hq2⟩
    · rintro ⟨h1, h2⟩
      exact ⟨⟨h1, h2 s (Or.inl rfl)⟩, fun q hq => h2 q (Or.inr hq)⟩

theorem fold_filter_nodup (ss : List (List Uuid)) (start : List Uuid)
    (h : start.Nodup) :
    (ss.foldl (fun r s => r.filter fun i => decide (i ∈ s)) start).Nodup :=
  foldl_preserve List.Nodup _ (fun b _ hb => hb.filter _) ss start h

theorem mem_map_snd_iff (db : Db) (hkeys : (db.entries.map Prod.fst).Nodup)
    (hwf : ∀ p ∈ db.entries, p.2.id = p.1) (e : ImageEntry) :
    e ∈ db.entries.map Prod.snd ↔ lookupA e.id db.entries = some e := by
  constructor
  · intro hm
    obtain ⟨p, hp, hp2⟩ := List.mem_map.mp hm
    have h1 := lookupA_eq_some_of_mem hkeys (show (p.1, p.2) ∈ db.entries from hp)
    rw [← hp2, hwf p hp]
    exact h1
  · intro h
    exact List.mem_map_of_mem Prod.snd (mem_of_lookupA_eq_some h)

theorem map_snd_nodup (db : Db) (hkeys : (db.entries.map Prod.fst).Nodup)
    (hwf : ∀ p ∈ db.entries, p.2.id = p.1) :
    (db.entries.map Prod.snd).Nodup := by
  have hmap : (db.entries.map Prod.snd).map ImageEntry.id = db.entries.map Prod.fst := by
    rw [List.map_map]
    exact List.map_congr_left (fun p hp => hwf p hp)
  exact List.Nodup.of_map ImageEntry.id (hmap ▸ hkeys)

theorem searchFinish_spec (db : Db) (idx : TagIndex) (exc : List String)
    (cand : List Uuid)
    (hkeys : (db.entries.map Prod.fst).Nodup)
    (hwf : ∀ p ∈ db.entries, p.2.id = p.1)
    (hnormexc : ∀ t ∈ exc, normalizeTag t = .ok t) (hnd : cand.Nodup) :
    ∃ l, searchFinish db idx exc cand = .ok l ∧ List.Sorted createdDesc l ∧ l.Nodup ∧
      ∀ e, e ∈ l ↔ lookupA e.id db.entries = some e ∧ e.id ∈ cand ∧
        ∀ t ∈ exc, e.id ∉ lookupBucket idx t := by
  obtain ⟨c2, heq2, hmem2, hnd2⟩ := applyExcludes_spec idx exc hnormexc cand
  obtain ⟨hfnd, hfmem⟩ := fetch_spec db hkeys hwf c2 (hnd2 hnd)
  refine ⟨List.insertionSort createdDesc (c2.filterMap fun i => lookupA i db.entries),
    ?_, ?_, ?_, ?_⟩
  · unfold searchFinish
    rw [heq2, exceptBind_ok]
  · exact List.sorted_insertionSort createdDesc _
  · exact ((List.perm_insertionSort createdDesc _).nodup_iff).mpr hfnd
  · intro e
    rw [(List.perm_insertionSort createdDesc _).mem_iff, hfmem e, hmem2 e.id]
    tauto

theorem searchCore_eq (db : Db) (idx : TagIndex) (inc exc : List String)
    (hinc : ¬ inc.isEmpty = true)
    (hnormi : ∀ t ∈ inc, normalizeTag t = .ok t) :
    searchCore db idx inc exc =
      (let ssorted := List.insertionSort lenLE (inc.map (lookupBucket idx))
       let first := ssorted.headD []
       if first.isEmpty then Except.ok []
       else
         let res := ssorted.tail.foldl (fun r s => r.filter fun i => decide (i ∈ s)) first
         if res.isEmpty then Except.ok []
         else searchFinish db idx exc res) := by
  unfold searchCore
  rw [collectBuckets_ok _ _ hnormi, exceptBind_ok, if_neg hinc]

theorem searchCore_empty_include (db : Db) (idx : TagIndex) (inc exc : List String)
    (hinc : inc.isEmpty = true)
    (hnormi : ∀ t ∈ inc, normalizeTag t = .ok t) :
    searchCore db idx inc exc =
      searchFinish db idx exc ((Db.get_all_entries db).map ImageEntry.id) := by
  unfold searchCore
  rw [collectBuckets_ok _ _ hnormi, exceptBind_ok, if_pos hinc]

/-- C4 (amended): on an unlocked vault whose tag index agrees with the
stored entries, `search_by_tags(I, X)` (for valid, already-normalized
tags) returns exactly the stored entries whose tags include every tag of
`I` and none of `X`, sorted by `created_at` descending.  The comparator
looks only at `created_at`: the order among entries with equal
`created_at` is unspecified (it is NOT broken by id — see the
counterexample). -/
theorem search_by_tags_spec (v : Vault) (data : VaultData)
    (includeTags excludeTags : List String)
    (hd : v.data = some data)
    (hkeys : (v.db.entries.map Prod.fst).Nodup)
    (hwf : ∀ p ∈ v.db.entries, p.2.id = p.1)
    (hagree : ∀ id e, lookupA id v.db.entries = some e →
      ∀ t, t ∈ e.tags ↔ id ∈ lookupBucket data.tag_index t)
    (hbuckets : ∀ t, (lookupBucket data.tag_index t).Nodup)
    (hnorm : ∀ t ∈ includeTags ++ excludeTags, normalizeTag t = .ok t) :
    ∃ l, v.search_by_tags includeTags excludeTags = .ok l ∧
      List.Sorted createdDesc l ∧
      l.Perm ((v.db.entries.map Prod.snd).filter
        (fun e => includeTags.all (fun t => decide (t ∈ e.tags)) &&
          excludeTags.all (fun t => decide (t ∉ e.tags)))) := by
  have hnormi : ∀ t ∈ includeTags, normalizeTag t = .ok t :=
    fun t ht => hnorm t (List.mem_append.mpr (Or.inl ht))
  have hnorme : ∀ t ∈ excludeTags, normalizeTag t = .ok t :=
    fun t ht => hnorm t (List.mem_append.mpr (Or.inr ht))
  have htargetnd : ((v.db.entries.map Prod.snd).filter
      (fun e => includeTags.all (fun t => decide (t ∈ e.tags)) &&
        excludeTags.all (fun t => decide (t ∉ e.tags)))).Nodup :=
    (map_snd_nodup v.db hkeys hwf).filter _
  have htargetmem : ∀ e : ImageEntry,
      e ∈ (v.db.entries.map Prod.snd).filter
        (fun e => includeTags.all (fun t => decide (t ∈ e.tags)) &&
          excludeTags.all (fun t => decide (t ∉ e.tags))) ↔
      (lookupA e.id v.db.entries = some e ∧ (∀ t ∈ includeTags, t ∈ e.tags) ∧
        ∀ t ∈ excludeTags, t ∉ e.tags) := by
    intro e
    rw [List.mem_filter, mem_map_snd_iff v.db hkeys hwf e, Bool.and_eq_true,
      List.all_eq_true, List.all_eq_true]
    simp only [decide_eq_true_eq]
  unfold Vault.search_by_tags
  by_cases hq : (includeTags.isEmpty && excludeTags.isEmpty) = true
  · rw [if_pos hq]
    obtain ⟨hi, he⟩ : includeTags = [] ∧ excludeTags = [] := by
      simpa using hq
    refine ⟨Db.get_all_entries v.db,
      by simp [Vault.list_images, Vault.withData, hd],
      List.sorted_insertionSort _ _, ?_⟩
    have hfe : (v.db.entries.map Prod.snd).filter
        (fun e => includeTags.all (fun t => decide (t ∈ e.tags)) &&
          excludeTags.all (fun t => decide (t ∉ e.tags))) =
        v.db.entries.map Prod.snd := by
      apply List.filter_eq_self.mpr
      intro e _
      rw [hi, he]
      rfl
    rw [hfe]
    exact List.perm_insertionSort _ _
  · rw [if_neg hq]
    rw [show (Vault.withData v fun data2 =>
        searchCore v.db data2.tag_index includeTags excludeTags) =
        searchCore v.db data.tag_index includeTags excludeTags from by
      unfold Vault.withData
      rw [hd]]
    by_cases hie : includeTags.isEmpty = true
    · rw [searchCore_empty_include v.db data.tag_index includeTags excludeTags hie hnormi]
      have hi := List.isEmpty_iff.mp hie
      have hcandmem : ∀ x, x ∈ (Db.get_all_entries v.db).map ImageEntry.id ↔
          ∃ e2, lookupA x v.db.entries = some e2 := by
        intro x
        rw [List.mem_map]
        constructor
        · rintro ⟨e2, hmem, rfl⟩
          exact ⟨e2, (mem_map_snd_iff v.db hkeys hwf e2).mp
            ((List.perm_insertionSort createdDesc _).mem_iff.mp hmem)⟩
        · rintro ⟨e2, hx⟩
          have hida : e2.id = x := hwf (x, e2) (mem_of_lookupA_eq_some hx)
          refine ⟨e2, ?_, hida⟩
          exact (List.perm_insertionSort createdDesc _).mem_iff.mpr
            ((mem_map_snd_iff v.db hkeys hwf e2).mpr (by rw [hida]; exact hx))
      have hcandnd : ((Db.get_all_entries v.db).map ImageEntry.id).Nodup := by
        have hperm : List.Perm ((Db.get_all_entries v.db).map ImageEntry.id)
            ((v.db.entries.map Prod.snd).map ImageEntry.id) :=
          (List.perm_insertionSort createdDesc _).map ImageEntry.id
        rw [hperm.nodup_iff, List.map_map,
          show v.db.entries.map (ImageEntry.id ∘ Prod.snd) = v.db.entries.map Prod.fst
            from List.map_congr_left (fun p hp => hwf p hp)]
        exact hkeys
      obtain ⟨l, hleq, hlsort, hlnd, hlmem⟩ := searchFinish_spec v.db data.tag_index
        excludeTags ((Db.get_all_entries v.db).map ImageEntry.id) hkeys hwf hnorme hcandnd
      refine ⟨l, hleq, hlsort, ?_⟩
      rw [List.perm_ext_iff_of_nodup hlnd htargetnd]
      intro e
      rw [hlmem e, htargetmem e]
      constructor
      · rintro ⟨hst, -, hexc⟩
        refine ⟨hst, by rw [hi]; exact fun t ht => absurd ht (List.not_mem_nil t), ?_⟩
        intro t ht hcon
        exact hexc t ht ((hagree e.id e hst t).mp hcon)
      · rintro ⟨hst, -, hexc⟩
        refine ⟨hst, (hcandmem e.id).mpr ⟨e, hst⟩, ?_⟩
        intro t ht hcon
        exact hexc t ht ((hagree e.id e hst t).mpr hcon)
    · rw [searchCore_eq v.db data.tag_index includeTags excludeTags hie hnormi]
      have hincne : includeTags ≠ [] := fun hc => hie (by rw [hc]; rfl)
      obtain ⟨s0, ss, hsplit⟩ : ∃ s0 ss,
          List.insertionSort lenLE (includeTags.map (lookupBucket data.tag_index)) =
            s0 :: ss := by
        cases hcase : List.insertionSort lenLE
            (includeTags.map (lookupBucket data.tag_index)) with
        | nil =>
          exfalso
          have hp := List.perm_insertionSort lenLE
            (includeTags.map (lookupBucket data.tag_index))
          rw [hcase] at hp
          exact hincne (by
            have h2 := List.Perm.eq_nil hp.symm
            exact List.map_eq_nil_iff.mp h2)
        | cons a b => exact ⟨a, b, rfl⟩
      have hp := List.perm_insertionSort lenLE
        (includeTags.map (lookupBucket data.tag_index))
      rw [hsplit] at hp
      dsimp only
      rw [hsplit]
      simp only [List.headD_cons, List.tail_cons]
      obtain ⟨t0, ht0, ht0b⟩ := List.mem_map.mp (hp.subset (List.mem_cons_self s0 ss))
      have hallsets : ∀ x : Uuid, (x ∈ s0 ∧ ∀ s ∈ ss, x ∈ s) ↔
          ∀ t ∈ includeTags, x ∈ lookupBucket data.tag_index t := by
        intro x
        constructor
        · rintro ⟨h1, h2⟩ t ht
          have h3 : lookupBucket data.tag_index t ∈ s0 :: ss :=
            hp.mem_iff.mpr (List.mem_map_of_mem _ ht)
          rcases List.mem_cons.mp h3 with heq2 | h4
          · rw [heq2]
            exact h1
          · exact h2 _ h4
        · intro hall
          constructor
          · rw [← ht0b]
            exact hall t0 ht0
          · intro s hs
            obtain ⟨t, ht, rfl⟩ := List.mem_map.mp (hp.subset (List.mem_cons_of_mem _ hs))
            exact hall t ht
      by_cases hfe : s0.isEmpty = true
      · rw [if_pos hfe]
        refine ⟨[], rfl, List.sorted_nil, ?_⟩
        have hts0 : lookupBucket data.tag_index t0 = [] := by
          rw [ht0b]
          exact List.isEmpty_iff.mp hfe
        have hnone : (v.db.entries.map Prod.snd).filter
            (fun e => includeTags.all (fun t => decide (t ∈ e.tags)) &&
              excludeTags.all (fun t => decide (t ∉ e.tags))) = [] := by
          rcases hcase : (v.db.entries.map Prod.snd).filter
              (fun e => includeTags.all (fun t => decide (t ∈ e.tags)) &&
                excludeTags.all (fun t => decide (t ∉ e.tags))) with _ | ⟨e, rest⟩
          · exact hcase
          · exfalso
            have hmem : e ∈ (v.db.entries.map Prod.snd).filter
                (fun e => includeTags.all (fun t => decide (t ∈ e.tags)) &&
                  excludeTags.all (fun t => decide (t ∉ e.tags))) := by
              rw [hcase]
              exact List.mem_cons_self _ _
            obtain ⟨hst, hinc2, -⟩ := (htargetmem e).mp hmem
            have h5 := (hagree e.id e hst t0).mp (hinc2 t0 ht0)
            rw [hts0] at h5
            exact absurd h5 (List.not_mem_nil _)
        rw [hnone]
      · rw [if_neg hfe]
        have hresmem : ∀ x : Uuid,
            x ∈ ss.foldl (fun r s => r.filter fun i => decide (i ∈ s)) s0 ↔
              ∀ t ∈ includeTags, x ∈ lookupBucket data.tag_index t := by
          intro x
          rw [fold_filter_mem]
          exact hallsets x
        have hresnd : (ss.foldl (fun r s => r.filter fun i => decide (i ∈ s)) s0).Nodup :=
          fold_filter_nodup ss s0 (ht0b ▸ hbuckets t0)
        by_cases hre : (ss.foldl (fun r s => r.filter fun i => decide (i ∈ s)) s0).isEmpty
            = true
        · rw [if_pos hre]
          refine ⟨[], rfl, List.sorted_nil, ?_⟩
          have hnone : (v.db.entries.map Prod.snd).filter
              (fun e => includeTags.all (fun t => decide (t ∈ e.tags)) &&
                excludeTags.all (fun t => decide (t ∉ e.tags))) = [] := by
            rcases hcase : (v.db.entries.map Prod.snd).filter
                (fun e => includeTags.all (fun t => decide (t ∈ e.tags)) &&
                  excludeTags.all (fun t => decide (t ∉ e.tags))) with _ | ⟨e, rest⟩
            · exact hcase
            · exfalso
              have hmem : e ∈ (v.db.entries.map Prod.snd).filter
                  (fun e => includeTags.all (fun t => decide (t ∈ e.tags)) &&
                    excludeTags.all (fun t => decide (t ∉ e.tags))) := by
                rw [hcase]
                exact List.mem_cons_self _ _
              obtain ⟨hst, hinc2, -⟩ := (htargetmem e).mp hmem
              have h5 : e.id ∈ ss.foldl (fun r s => r.filter fun i => decide (i ∈ s)) s0 :=
                (hresmem e.id).mpr
                  (fun t ht => (hagree e.id e hst t).mp (hinc2 t ht))
              rw [List.isEmpty_iff.mp hre] at h5
              exact absurd h5 (List.not_mem_nil _)
          rw [hnone]
        · rw [if_neg hre]
          obtain ⟨l, hleq, hlsort, hlnd, hlmem⟩ := searchFinish_spec v.db data.tag_index
            excludeTags (ss.foldl (fun r s => r.filter fun i => decide (i ∈ s)) s0)
            hkeys hwf hnorme hresnd
          refine ⟨l, hleq, hlsort, ?_⟩
          rw [List.perm_ext_iff_of_nodup hlnd htargetnd]
          intro e
          rw [hlmem e, htargetmem e]
          constructor
          · rintro ⟨hst, hcand, hexc⟩
            refine ⟨hst, ?_, ?_⟩
            · intro t ht
              exact (hagree e.id e hst t).mpr ((hresmem e.id).mp hcand t ht)
            · intro t ht hcon
              exact hexc t ht ((hagree e.id e hst t).mp hcon)
          · rintro ⟨hst, hinc2, hexc⟩
            refine ⟨hst, (hresmem e.id).mpr
              (fun t ht => (hagree e.id e hst t).mp (hinc2 t ht)), ?_⟩
            intro t ht hcon
            exact hexc t ht ((hagree e.id e hst t).mpr hcon)

/-- C4 counterexample: three entries share `created_at = 100` with ids
1, 2, 3; the search returns them in bucket-iteration order `[2, 1, 3]`,
which is ordered neither by ascending nor by descending id — the
comparator `b.created_at.cmp(&a.created_at)` never looks at the id, so
ties are NOT broken by id. -/
theorem search_tie_not_by_id_counterexample :
    searchVault.search_by_tags ["a"] [] = .ok [entryB, entryA, entryC] ∧
    entryA.created_at = entryB.created_at ∧ entryB.created_at = entryC.created_at ∧
    ¬ List.Sorted createdDescThenIdAsc [entryB, entryA, entryC] ∧
    ¬ List.Sorted createdDescThenIdDesc [entryB, entryA, entryC] := by
  refine ⟨by decide, rfl, rfl, ?_, ?_⟩
  · intro h
    have h2 := List.rel_of_sorted_cons h entryA (List.mem_cons_self _ _)
    rcases h2 with h3 | ⟨-, h4⟩
    · exact absurd h3 (by decide)
    · exact absurd h4 (by decide)
  · intro h
    have h2 := (List.sorted_cons.mp h).2
    have h3 := List.rel_of_sorted_cons h2 entryC (List.mem_cons_self _ _)
    rcases h3 with h4 | ⟨-, h5⟩
    · exact absurd h4 (by decide)
    · exact absurd h5 (by decide)

/-- C4 witness: the amended search specification on the concrete
three-entry vault. -/
theorem search_by_tags_spec_witness :
    ∃ l, searchVault.search_by_tags ["a"] [] = .ok l ∧
      List.Sorted createdDesc l ∧
      l.Perm ((searchVault.db.entries.map Prod.snd).filter
        (fun e => (["a"] : List String).all (fun t => decide (t ∈ e.tags)) &&
          ([] : List String).all (fun t => decide (t ∉ e.tags)))) := by
  have haux : ∀ id : Uuid, id ∈ ([2, 1, 3] : List Uuid) →
      ∀ t : String, t ∈ ["a"] ↔
        id ∈ lookupBucket ([("a", [2, 1, 3])] : TagIndex) t := by
    intro id hid t
    unfold lookupBucket
    by_cases ht : "a" = t
    · rw [← ht]
      simpa [lookupA] using hid
    · constructor
      · intro hc
        exact absurd (List.mem_singleton.mp hc).symm ht
      · intro hc
        simp [lookupA, ht] at hc
  refine search_by_tags_spec searchVault ⟨[("a", [2, 1, 3])], sampleKey⟩ ["a"] []
    rfl (by decide) (by decide) ?_ ?_ (by decide)
  · intro id e h t
    simp only [searchVault, lookupA] at h
    by_cases h2 : (2 : Uuid) = id
    · rw [if_pos h2] at h
      injection h with he
      rw [← he]
      exact haux id (by rw [← h2]; decide) t
    · rw [if_neg h2] at h
      by_cases h1 : (1 : Uuid) = id
      · rw [if_pos h1] at h
        injection h with he
        rw [← he]
        exact haux id (by rw [← h1]; decide) t
      · rw [if_neg h1] at h
        by_cases h3 : (3 : Uuid) = id
        · rw [if_pos h3] at h
          injection h with he
          rw [← he]
          exact haux id (by rw [← h3]; decide) t
        · rw [if_neg h3] at h
          cases h
  · intro t
    unfold lookupBucket
    by_cases ht : "a" = t
    · rw [← ht]
      simp [lookupA]
    · simp [lookupA, ht]

end Vanta
